import Mathlib

/-!
Shallow embedding of `src/blackboard_archive_extractor.py` and proofs about it.

Conventions of the embedding:
* Python strings are Lean `String`s; all character-level work is done on
  `String.data : List Char` (Python characters are Unicode code points, as are
  Lean `Char`s).
* The output directory is a finite map from paths to file contents,
  represented as an association list (`FS`); `open(p, 'w')` truncates first
  (mapping the path to `""`) and then writes the decoded text.
* Archive member contents are modelled post-decoding: a member carries
  `some s` when its raw bytes decode as UTF-8 to `s`, and `none` when the
  bytes are undecodable (`bytes.decode('utf-8')` raises).
* Fallible code returns `Except ExtractError`; the distinct Python exception
  classes are the constructors of `ExtractError`.
-/

namespace BBX

/-! ### Small string helpers (counterparts of Python primitives) -/

/-- Python `"test" in name`: substring containment (contiguous) — `pat`
occurs as a prefix of some tail of `s`. -/
def containsSub (s pat : String) : Bool :=
  s.data.tails.any (fun t => pat.data.isPrefixOf t)

/-- Python `name.endswith(suf)`. -/
def strEndsWith (s suf : String) : Bool :=
  suf.data.isSuffixOf s.data

/-- POSIX `os.path.basename`: everything after the last `'/'` (the whole
string when there is no `'/'`). -/
def basenameChars (cs : List Char) : List Char :=
  (cs.reverse.takeWhile (fun c => c != '/')).reverse

/-- POSIX `os.path.basename` on strings. -/
def pyBasename (s : String) : String :=
  ⟨basenameChars s.data⟩

/-- Whether a string starts with `'/'`. -/
def startsWithSlash (s : String) : Bool :=
  match s.data with
  | '/' :: _ => true
  | _ => false

/-- Whether a string ends with `'/'`. -/
def endsWithSlash (s : String) : Bool :=
  match s.data.getLast? with
  | some '/' => true
  | _ => false

/-- POSIX `os.path.join(dir, f)` for two components:
`join(a, b)` is `b` when `b` is absolute, `a + b` when `a` is empty or ends
in a slash, and `a + "/" + b` otherwise. -/
def pyJoin (dir f : String) : String :=
  if startsWithSlash f then f
  else if dir == "" || endsWithSlash dir then dir ++ f
  else dir ++ "/" ++ f

/-! ### `_str_dist` (lines 12-34): row-based Levenshtein dynamic program -/

/-- Inner loop of `_str_dist` (lines 25-31): given the remaining characters
of `string2`, the tail of `previous_row` still to be consumed (whose head is
`previous_row[j]`), and `left = current_row[j]` (the value appended last),
produce the rest of `current_row` (everything after the leading `i + 1`).

`insertions = previous_row[j+1] + 1`, `deletions = current_row[j] + 1`,
`substitutions = previous_row[j] + (char1 != char2)`. -/
def dpRowAux (c1 : Char) : List Char → List Nat → Nat → List Nat
  | [], _, _ => []
  | c2 :: rest, p0 :: p1 :: ps, left =>
    let cur := min (min (p1 + 1) (left + 1)) (p0 + (if c1 = c2 then 0 else 1))
    cur :: dpRowAux c1 rest (p1 :: ps) cur
  | _ :: _, _, _ => []

/-- One iteration of the outer loop (lines 23-32): `current_row = [i + 1]`
followed by the inner loop over `string2`. -/
def dpRow (c1 : Char) (s2 : List Char) (prev : List Nat) (i : Nat) : List Nat :=
  (i + 1) :: dpRowAux c1 s2 prev (i + 1)

/-- The outer loop of `_str_dist` (lines 23-32): fold the rows over the
characters of `string1`, starting from `previous_row = range(len(string2)+1)`
and `i = 0`. -/
def dpLoop : List Char → List Char → List Nat → Nat → List Nat
  | [], _, prev, _ => prev
  | c1 :: rest1, s2, prev, i => dpLoop rest1 s2 (dpRow c1 s2 prev i) (i + 1)

/-- `_str_dist(string1, string2)` (lines 12-34): swap so that `string1` is
the longer string, return its length when the shorter is empty, otherwise run
the dynamic program and return `previous_row[-1]`. -/
def str_dist (string1 string2 : String) : Nat :=
  let p := if string1.length < string2.length then (string2, string1)
           else (string1, string2)
  let s1 := p.1
  let s2 := p.2
  if s2.length = 0 then s1.length
  else (dpLoop s1.data s2.data (List.range (s2.data.length + 1)) 0).getLastD 0

/-- Reference recursive Levenshtein distance (unit insert/delete/substitute
costs), used to reason about the row-based program. -/
def levRec : List Char → List Char → Nat
  | [], ys => ys.length
  | x :: xs, [] => (x :: xs).length
  | x :: xs, y :: ys =>
    min (min (levRec (x :: xs) ys + 1) (levRec xs (y :: ys) + 1))
      (levRec xs ys + (if x = y then 0 else 1))
termination_by xs ys => xs.length + ys.length
decreasing_by all_goals simp_arith

/-! ### Filesystem model

The output directory as an association list from paths to text contents.
`os.remove` deletes an entry, `open(p, 'w')` truncates (entry becomes `""`)
and a subsequent `.write(s)` fills it. -/

/-- The output directory: a list of `(path, contents)` entries. -/
abbrev FS := List (String × String)

/-- Contents at a path, if a file exists there. -/
def fsLookup (fs : FS) (p : String) : Option String :=
  (fs.find? (fun e => e.1 == p)).map (fun e => e.2)

/-- Python `os.path.exists(p)` over the modelled directory. -/
def fsExists (fs : FS) (p : String) : Bool :=
  (fs.find? (fun e => e.1 == p)).isSome

/-- Python `os.remove(p)`: drop the entry at `p`. -/
def fsRemove (fs : FS) (p : String) : FS :=
  fs.filter (fun e => e.1 != p)

/-- Lines 102-103: `if os.path.exists(target_path): os.remove(target_path)`. -/
def fsRemoveIf (fs : FS) (p : String) : FS :=
  if fsExists fs p then fsRemove fs p else fs

/-- Create or overwrite the file at `p` with contents `v` (an existing entry
is replaced in place, a fresh one is appended). -/
def fsWrite (fs : FS) (p : String) (v : String) : FS :=
  if fsExists fs p then fs.map (fun e => if e.1 == p then (p, v) else e)
  else fs ++ [(p, v)]

/-! ### The extraction engine (`extract_files`, lines 82-136) -/

/-- An archive listing: members in `namelist()` order; each member's content
is `some s` when its bytes decode as UTF-8 to `s`, `none` when undecodable. -/
abbrev Archive := List (String × Option String)

/-- `zipfile.read(n)`: content of the member named `n`. `ZipFile` keeps a
name-to-entry map in which the last entry with a given name wins. -/
def readName (arch : Archive) (n : String) : Option (Option String) :=
  ((arch.filter (fun m => m.1 == n)).getLast?).map (fun m => m.2)

/-- Errors raised by `extract_files`: `ZipFile` open failure (the spec's
`ArchiveOpenError`), `zipfile.read` of an unknown name (`KeyError`,
unreachable for names taken from the listing), `bytes.decode('utf-8')`
failure (the spec's `DecodeError`), and the `FileNotFoundError` raised at
lines 124-125 (the spec's `MemberNotFound`) carrying its message. -/
inductive ExtractError
  | archiveOpen
  | keyError
  | decodeError
  | memberNotFound (msg : String)
deriving DecidableEq

deriving instance DecidableEq for Except

/-- Outcome of the `for name in zipfile.namelist()` scan (lines 105-120):
either the early `return True, expected` fired on `name` (an exact hit), or
the loop finished with the tracked best fuzzy candidate and its distance. -/
inductive ScanRes
  | exactHit (name : String)
  | done (best : Option (String × Nat))
deriving DecidableEq

/-- The `tmp_dist = _str_dist(...); if tmp_dist < best_dist: ...` update of
the tracked best candidate (lines 117-120): a strictly smaller distance
replaces the incumbent, anything else keeps it.  `none` models the initial
`best_path = None, best_dist = sys.float_info.max` (every distance beats
it). -/
def bestStep (f : String → Nat) (b : Option (String × Nat)) (n : String) :
    Option (String × Nat) :=
  match b with
  | none => some (n, f n)
  | some bb => if f n < bb.2 then some (n, f n) else some bb

/-- The scan loop (lines 105-120): members whose name contains `"test"` are
skipped; a member whose name ends with `fname` is an early exact return when
it equals `expected`, otherwise (in fuzzy mode) a candidate fed to
`bestStep` with the Levenshtein distance to `expected`. -/
def scanNames (expected fname : String) (exact : Bool) :
    Option (String × Nat) → Archive → ScanRes
  | best, [] => .done best
  | best, m :: rest =>
    if containsSub m.1 "test" then scanNames expected fname exact best rest
    else if strEndsWith m.1 fname then
      if m.1 == expected then .exactHit m.1
      else if !exact then
        scanNames expected fname exact
          (bestStep (fun n => str_dist expected n) best m.1) rest
      else scanNames expected fname exact best rest
    else scanNames expected fname exact best rest

/-- The target path `os.path.join(self._target, pre + fname)` of line 101. -/
def targetPathOf (target pre expected : String) : String :=
  pyJoin target (pre ++ pyBasename expected)

/-- `BlackboardArchiveExtractor.extract_files(archive, expected, exact, pre)`
for an extractor constructed with target directory `target`, acting on the
modelled output directory `fs`.  `archOpen` is the result of
`ZipFile(archivePath, 'r')`: `none` when the container cannot be opened,
`some arch` with the member listing otherwise.  Returns the Python result
`(bool, best_path)` (or the raised error) together with the final directory
state.

Faithful details: the pre-existing file at the target path is removed before
the scan (lines 101-103); an exact hit writes inside the loop and returns
`(True, expected)` (lines 110-114); afterwards, in fuzzy mode, a falsy
`best_path` (`None` or `""`) raises `FileNotFoundError` with the message of
lines 124-125, otherwise the best candidate is written (lines 127-131); the
final statement returns `(False, best_path)` (line 133).  `open(p, 'w')`
truncates before `.decode('utf-8')` is evaluated, so a decode failure leaves
an empty file at the target path. -/
def extract_files (target : String) (fs : FS) (archivePath : String)
    (archOpen : Option Archive) (expected : String) (exact : Bool)
    (pre : String) : Except ExtractError (Bool × Option String) × FS :=
  match archOpen with
  | none => (.error .archiveOpen, fs)
  | some arch =>
    let fname := pyBasename expected
    let target_path := pyJoin target (pre ++ fname)
    let fs1 := fsRemoveIf fs target_path
    match scanNames expected fname exact none arch with
    | .exactHit name =>
      match readName arch name with
      | none => (.error .keyError, fs1)
      | some content =>
        let fs2 := fsWrite fs1 target_path ""
        match content with
        | none => (.error .decodeError, fs2)
        | some s => (.ok (true, some expected), fsWrite fs2 target_path s)
    | .done best =>
      if !exact then
        match best with
        | none =>
          (.error (.memberNotFound (fname ++ " not found in " ++ archivePath)),
            fs1)
        | some b =>
          if b.1 == "" then
            (.error (.memberNotFound
                (fname ++ " not found in " ++ archivePath)), fs1)
          else
            match readName arch b.1 with
            | none => (.error .keyError, fs1)
            | some content =>
              let fs2 := fsWrite fs1 target_path ""
              match content with
              | none => (.error .decodeError, fs2)
              | some s => (.ok (false, some b.1), fsWrite fs2 target_path s)
      else (.ok (false, best.map (fun b => b.1)), fs1)

/-! ### Identity parsing (`__REGEX` at lines 47-53 and `get_submissions`)

`re.match` of `[^_]+_([a-z]+[0-9]*)_.+_([0-9]{4}-[0-9]{2}-[0-9]{2})-.*` is
embedded as a backtracking search in the engine's preference order: each
greedy quantifier tries its longest feasible length first and backtracks
downward; the first overall success gives the captured groups.  `[^_]` and
classes like `[a-z]` match any character in the class (including a newline
for negated classes), while `.` matches any character except `'\n'`. -/

/-- Character class `[a-z]`. -/
def isLowerAZ (c : Char) : Bool := 'a' ≤ c && c ≤ 'z'

/-- Character class `[0-9]`. -/
def isDigit09 (c : Char) : Bool := '0' ≤ c && c ≤ '9'

/-- Shape `[0-9]{4}-[0-9]{2}-[0-9]{2}` (exactly ten characters). -/
def dateShaped : List Char → Bool
  | [a, b, c, d, e, f, g, h, i, j] =>
    isDigit09 a && isDigit09 b && isDigit09 c && isDigit09 d && (e == '-') &&
      isDigit09 f && isDigit09 g && (h == '-') && isDigit09 i && isDigit09 j
  | _ => false

/-- Length of the longest prefix of `cs` inside the class `p` — the first
length a greedy `p*`/`p+` quantifier tries. -/
def runLen (p : Char → Bool) (cs : List Char) : Nat :=
  (cs.takeWhile p).length

/-- Candidate lengths `[n, n-1, ..., 1]` for a greedy one-or-more
quantifier whose longest feasible take is `n`. -/
def countdown (n : Nat) : List Nat :=
  (List.range n).reverse.map (fun k => k + 1)

/-- Candidate lengths `[n, n-1, ..., 0]` for a greedy zero-or-more
quantifier whose longest feasible take is `n`. -/
def countdown0 (n : Nat) : List Nat :=
  (List.range (n + 1)).reverse

/-- Match `.+_([0-9]{4}-[0-9]{2}-[0-9]{2})-.*` against `rest2` (the input
just after the second `_`), returning the captured date.  The greedy `.+`
tries the longest newline-free take first; after it the literal `_`, the
ten date characters, and the literal `-` must follow (`.* ` at the end then
always succeeds, `re.match` not being end-anchored). -/
def matchTail (rest2 : List Char) : Option (List Char) :=
  (countdown (runLen (fun c => c != '\n') rest2)).findSome? (fun m =>
    match rest2.drop m with
    | '_' :: r3 =>
      let d := r3.take 10
      if dateShaped d then
        match r3.drop 10 with
        | '-' :: _ => some d
        | _ => none
      else none
    | _ => none)

/-- Match `([a-z]+[0-9]*)_` followed by the tail pattern against `rest1`
(the input just after the first `_`), returning the captured
`(username, date)` pair.  Greedy order: longest `[a-z]+` take first, then
longest `[0-9]*` take first. -/
def matchKey (rest1 : List Char) : Option (List Char × List Char) :=
  (countdown (runLen isLowerAZ rest1)).findSome? (fun lk =>
    let kl := rest1.take lk
    let r := rest1.drop lk
    (countdown0 (runLen isDigit09 r)).findSome? (fun ld =>
      let kd := r.take ld
      match r.drop ld with
      | '_' :: rest2 => (matchTail rest2).map (fun d => (kl ++ kd, d))
      | _ => none))

/-- `dfa.match(fname)` followed by the group extraction of lines 67-77:
`[^_]+` (greedy, longest first) then the literal `_`, then the key-and-tail
match.  Returns `(username, sub_date)` on a match; `none` models the failed
match, on which line 68 blows up (`None.lastindex` raises `AttributeError`)
so no partial result ever escapes. -/
def parse_fname (f : String) : Option (String × String) :=
  let cs := f.data
  ((countdown (runLen (fun c => c != '_') cs)).findSome? (fun la =>
    match cs.drop la with
    | '_' :: rest1 => matchKey rest1
    | _ => none)).map (fun kd => (⟨kd.1⟩, ⟨kd.2⟩))

/-! ### The structural pattern, in the spec's words

Section 4.1 of the specification: the filename decomposes, left to right,
into (a) one-or-more non-delimiter characters, (b) the submitter key
`[a-z]+[0-9]*`, (c) one-or-more arbitrary characters, (d) the fixed-width
date, (e) a `-` followed by arbitrary trailing characters, the five
segments separated by `_`. -/

/-- Spec shape of the submitter key: one-or-more lowercase letters followed
by zero-or-more digits. -/
def isSubmitterKey (k : List Char) : Bool :=
  let l := k.takeWhile isLowerAZ
  !l.isEmpty && (k.drop l.length).all isDigit09

/-- Modelled from the spec: the filename matches the structural pattern
`<ignored>_<submitterKey>_<ignored>_<ISO-date>-<ignored>` with captured
submitter key `k` and date `d` — segment (a) nonempty and free of the
delimiter, (c) "one-or-more arbitrary characters", (e) arbitrary trailing
characters. -/
def specDecomposes (f k d : String) : Prop :=
  ∃ a mid tail : List Char,
    f.data = a ++ '_' :: (k.data ++ '_' :: (mid ++ '_' :: (d.data ++ '-' :: tail))) ∧
    a ≠ [] ∧ a.all (fun c => c != '_') ∧ isSubmitterKey k.data ∧
    mid ≠ [] ∧ dateShaped d.data

/-- Modelled from the spec, restricted as the code forces: as
`specDecomposes`, but the middle `<ignored>` segment consists of
non-newline characters (Python `.` does not match a newline). -/
def specDecomposesNL (f k d : String) : Prop :=
  ∃ a mid tail : List Char,
    f.data = a ++ '_' :: (k.data ++ '_' :: (mid ++ '_' :: (d.data ++ '-' :: tail))) ∧
    a ≠ [] ∧ a.all (fun c => c != '_') ∧ isSubmitterKey k.data ∧
    mid ≠ [] ∧ mid.all (fun c => c != '\n') ∧ dateShaped d.data

/-! ### Correctness of the row-based dynamic program

`previous_row` after consuming a prefix `p` of `string1` holds, at index
`j`, the distance between `p` and the length-`j` prefix of `string2`.  The
rows are described by `mkRow pr q s2'`, whose entries are `levRec` values of
the reversed consumed prefix `pr` against successively longer reversed
prefixes of `string2` (reversal lets `levRec`, which recurses on the front,
describe a prefix that grows at the back). -/

/-- Tail of a semantic row: distances of `pr` against `c :: q`,
`c' :: c :: q`, ... for the characters of the remaining segment. -/
def mkRowT (pr : List Char) : List Char → List Char → List Nat
  | _, [] => []
  | q, c :: rest => levRec pr (c :: q) :: mkRowT pr (c :: q) rest

/-- A semantic row: distance of `pr` against `q` followed by the tail. -/
def mkRowT_cons (pr q : List Char) (s2' : List Char) : List Nat :=
  levRec pr q :: mkRowT pr q s2'

theorem levRec_nil_left (ys : List Char) : levRec [] ys = ys.length := by
  cases ys <;> simp [levRec]

theorem levRec_nil_right (xs : List Char) : levRec xs [] = xs.length := by
  cases xs <;> simp [levRec]

theorem levRec_cons_cons (x y : Char) (xs ys : List Char) :
    levRec (x :: xs) (y :: ys) =
      min (min (levRec (x :: xs) ys + 1) (levRec xs (y :: ys) + 1))
        (levRec xs ys + (if x = y then 0 else 1)) := by
  simp [levRec]

theorem dpRowAux_mkRow (c1 : Char) (pr : List Char) (s2' : List Char) :
    ∀ q, dpRowAux c1 s2' (mkRowT_cons pr q s2') (levRec (c1 :: pr) q) =
      mkRowT (c1 :: pr) q s2' := by
  induction s2' with
  | nil => intro q; rfl
  | cons c2 rest ih =>
    intro q
    show dpRowAux c1 (c2 :: rest)
        (levRec pr q :: levRec pr (c2 :: q) :: mkRowT pr (c2 :: q) rest)
        (levRec (c1 :: pr) q) = mkRowT (c1 :: pr) q (c2 :: rest)
    have hcur :
        min (min (levRec pr (c2 :: q) + 1) (levRec (c1 :: pr) q + 1))
          (levRec pr q + (if c1 = c2 then 0 else 1)) =
        levRec (c1 :: pr) (c2 :: q) := by
      rw [levRec_cons_cons, Nat.min_comm (levRec (c1 :: pr) q + 1)]
    simp only [dpRowAux, hcur, mkRowT]
    exact congrArg _ (ih (c2 :: q))

theorem dpRow_mkRow (c1 : Char) (pr s2 : List Char) :
    dpRow c1 s2 (mkRowT_cons pr [] s2) pr.length = mkRowT_cons (c1 :: pr) [] s2 := by
  have h0 : pr.length + 1 = levRec (c1 :: pr) [] := by
    rw [levRec_nil_right]; rfl
  show (pr.length + 1) :: dpRowAux c1 s2 (mkRowT_cons pr [] s2) (pr.length + 1) =
    levRec (c1 :: pr) [] :: mkRowT (c1 :: pr) [] s2
  rw [h0, dpRowAux_mkRow]

theorem dpLoop_mkRow (s2 : List Char) :
    ∀ (s1' pr : List Char),
      dpLoop s1' s2 (mkRowT_cons pr [] s2) pr.length =
        mkRowT_cons (s1'.reverse ++ pr) [] s2 := by
  intro s1'
  induction s1' with
  | nil => intro pr; rfl
  | cons c1 rest ih =>
    intro pr
    show dpLoop rest s2 (dpRow c1 s2 (mkRowT_cons pr [] s2) pr.length)
        (pr.length + 1) = _
    rw [dpRow_mkRow]
    have : pr.length + 1 = (c1 :: pr).length := rfl
    rw [this, ih (c1 :: pr)]
    simp

theorem mkRowT_init (s2' : List Char) :
    ∀ q : List Char,
      mkRowT [] q s2' = (List.range s2'.length).map (fun j => j + q.length + 1) := by
  induction s2' with
  | nil => intro q; rfl
  | cons c rest ih =>
    intro q
    show levRec [] (c :: q) :: mkRowT [] (c :: q) rest = _
    rw [levRec_nil_left, ih (c :: q)]
    simp only [List.length_cons, List.range_succ_eq_map, List.map_cons, List.map_map]
    refine congrArg₂ _ (by omega) (List.map_congr_left ?_)
    intro j _
    simp [Function.comp]
    omega

theorem mkRow_init (s2 : List Char) :
    mkRowT_cons [] [] s2 = List.range (s2.length + 1) := by
  show levRec [] [] :: mkRowT [] [] s2 = _
  rw [levRec_nil_left, mkRowT_init, List.range_succ_eq_map]
  refine congrArg₂ _ rfl ?_
  refine (List.map_congr_left ?_).symm
  intro j _
  show j + 1 = j + ([] : List Char).length + 1
  rfl

theorem mkRow_getLast (pr : List Char) (s2' : List Char) :
    ∀ q, (mkRowT_cons pr q s2').getLastD 0 = levRec pr (s2'.reverse ++ q) := by
  induction s2' with
  | nil => intro q; rfl
  | cons c rest ih =>
    intro q
    show (levRec pr q :: levRec pr (c :: q) :: mkRowT pr (c :: q) rest).getLastD 0 = _
    have h1 : (levRec pr q :: levRec pr (c :: q) :: mkRowT pr (c :: q) rest).getLastD 0 =
        (mkRowT_cons pr (c :: q) rest).getLastD 0 := by
      simp [mkRowT_cons, List.getLastD_cons]
    rw [h1, ih (c :: q)]
    simp

theorem dpFull_eq_levRec (s1 s2 : List Char) :
    (dpLoop s1 s2 (List.range (s2.length + 1)) 0).getLastD 0 =
      levRec s1.reverse s2.reverse := by
  calc (dpLoop s1 s2 (List.range (s2.length + 1)) 0).getLastD 0
      = (dpLoop s1 s2 (mkRowT_cons [] [] s2) 0).getLastD 0 := by
        rw [mkRow_init]
    _ = (mkRowT_cons (s1.reverse ++ []) [] s2).getLastD 0 := by
        exact congrArg (fun l => l.getLastD 0) (dpLoop_mkRow s2 s1 [])
    _ = levRec s1.reverse s2.reverse := by rw [mkRow_getLast]; simp

theorem levRec_symm (xs : List Char) : ∀ ys, levRec xs ys = levRec ys xs := by
  induction xs with
  | nil => intro ys; rw [levRec_nil_left, levRec_nil_right]
  | cons x xs ih =>
    intro ys
    induction ys with
    | nil => rw [levRec_nil_left, levRec_nil_right]
    | cons y ys ih2 =>
      rw [levRec_cons_cons, levRec_cons_cons, ih2, ih (y :: ys), ih ys,
        Nat.min_comm (levRec ys (x :: xs) + 1)]
      congr 1
      simp [eq_comm]

theorem levRec_self (xs : List Char) : levRec xs xs = 0 := by
  induction xs with
  | nil => rw [levRec_nil_left]; rfl
  | cons x xs ih =>
    rw [levRec_cons_cons, if_pos rfl, ih]
    simp

/-- `_str_dist` computes the recursive Levenshtein distance (of the reversed
character lists; reversal is immaterial, it matches the row orientation). -/
theorem str_dist_eq_levRec (a b : String) :
    str_dist a b = levRec a.data.reverse b.data.reverse := by
  by_cases h : a.length < b.length
  · simp only [str_dist, if_pos h]
    by_cases h0 : a.length = 0
    · have ha : a.data = [] := List.length_eq_zero.mp h0
      rw [if_pos h0]
      simp [ha, levRec_nil_left]
    · rw [if_neg h0, dpFull_eq_levRec, levRec_symm]
  · simp only [str_dist, if_neg h]
    by_cases h0 : b.length = 0
    · have hb : b.data = [] := List.length_eq_zero.mp h0
      rw [if_pos h0]
      simp [hb, levRec_nil_right]
    · rw [if_neg h0, dpFull_eq_levRec]

/-! ### Filesystem algebra -/

theorem fsExists_cons (e : String × String) (rest : FS) (p : String) :
    fsExists (e :: rest) p = (e.1 == p || fsExists rest p) := by
  unfold fsExists
  rw [List.find?_cons]
  cases hq : (e.1 == p) <;> simp [hq]

theorem fsLookup_cons (e : String × String) (rest : FS) (p : String) :
    fsLookup (e :: rest) p = if e.1 == p then some e.2 else fsLookup rest p := by
  unfold fsLookup
  rw [List.find?_cons]
  cases hq : (e.1 == p) <;> simp [hq]

theorem fsRemove_cons (e : String × String) (rest : FS) (p : String) :
    fsRemove (e :: rest) p = if e.1 == p then fsRemove rest p else e :: fsRemove rest p := by
  unfold fsRemove
  rw [List.filter_cons]
  cases hq : (e.1 == p) <;> simp [bne, hq]

theorem fsExists_false_lookup {fs : FS} {p : String} (h : fsExists fs p = false) :
    fsLookup fs p = none := by
  induction fs with
  | nil => rfl
  | cons e rest ih =>
    rw [fsExists_cons, Bool.or_eq_false_iff] at h
    rw [fsLookup_cons, if_neg (by simp [h.1]), ih h.2]

theorem fsExists_false_remove {fs : FS} {p : String} (h : fsExists fs p = false) :
    fsRemove fs p = fs := by
  induction fs with
  | nil => rfl
  | cons e rest ih =>
    rw [fsExists_cons, Bool.or_eq_false_iff] at h
    rw [fsRemove_cons, if_neg (by simp [h.1]), ih h.2]

theorem fsRemoveIf_eq_fsRemove (fs : FS) (p : String) :
    fsRemoveIf fs p = fsRemove fs p := by
  unfold fsRemoveIf
  cases h : fsExists fs p with
  | true => rw [if_pos rfl]
  | false => rw [if_neg (by simp)]; exact (fsExists_false_remove h).symm

theorem fsExists_fsRemove (fs : FS) (p : String) :
    fsExists (fsRemove fs p) p = false := by
  induction fs with
  | nil => rfl
  | cons e rest ih =>
    rw [fsRemove_cons]
    by_cases hq : (e.1 == p) = true
    · rw [if_pos hq]; exact ih
    · rw [if_neg hq, fsExists_cons]
      simp only [Bool.or_eq_false_iff]
      exact ⟨by simpa using hq, ih⟩

theorem fsRemove_fsRemove (fs : FS) (p : String) :
    fsRemove (fsRemove fs p) p = fsRemove fs p :=
  fsExists_false_remove (fsExists_fsRemove fs p)

theorem fsRemove_map_write (fs : FS) (p v : String) :
    fsRemove (fs.map (fun e => if e.1 == p then (p, v) else e)) p = fsRemove fs p := by
  induction fs with
  | nil => rfl
  | cons e rest ih =>
    simp only [List.map_cons]
    by_cases hq : (e.1 == p) = true
    · rw [if_pos hq, fsRemove_cons, fsRemove_cons, if_pos hq, if_pos (by simp), ih]
    · rw [if_neg hq, fsRemove_cons, fsRemove_cons, if_neg hq, if_neg hq, ih]

theorem fsRemove_fsWrite (fs : FS) (p v : String) :
    fsRemove (fsWrite fs p v) p = fsRemove fs p := by
  unfold fsWrite
  by_cases h : fsExists fs p = true
  · rw [if_pos h]; exact fsRemove_map_write fs p v
  · rw [if_neg h]
    unfold fsRemove
    rw [List.filter_append]
    have h1 : ([(p, v)].filter (fun e => e.1 != p)) = [] := by simp [bne]
    rw [h1, List.append_nil]

theorem fsExists_map_write {fs : FS} {p : String} (v : String)
    (h : fsExists fs p = true) :
    fsExists (fs.map (fun e => if e.1 == p then (p, v) else e)) p = true := by
  induction fs with
  | nil => simp [fsExists] at h
  | cons e rest ih =>
    rw [fsExists_cons] at h
    simp only [List.map_cons]
    by_cases hq : (e.1 == p) = true
    · rw [if_pos hq, fsExists_cons]
      simp
    · rw [if_neg hq, fsExists_cons]
      rw [Bool.or_eq_true_iff] at h
      rcases h with h | h
      · exact absurd h hq
      · rw [Bool.or_eq_true_iff]
        exact Or.inr (ih h)

theorem fsExists_append_single (fs : FS) (p v : String) :
    fsExists (fs ++ [(p, v)]) p = true := by
  induction fs with
  | nil => simp [fsExists]
  | cons e rest ih =>
    rw [List.cons_append, fsExists_cons, ih]
    simp

theorem fsExists_fsWrite (fs : FS) (p v : String) :
    fsExists (fsWrite fs p v) p = true := by
  unfold fsWrite
  by_cases h : fsExists fs p = true
  · rw [if_pos h]; exact fsExists_map_write v h
  · rw [if_neg h]; exact fsExists_append_single fs p v

theorem fsRemove_fsRemoveIf (fs : FS) (p : String) :
    fsRemove (fsRemoveIf fs p) p = fsRemove fs p := by
  rw [fsRemoveIf_eq_fsRemove, fsRemove_fsRemove]

theorem fsLookup_map_write {fs : FS} {p : String} (v : String)
    (h : fsExists fs p = true) :
    fsLookup (fs.map (fun e => if e.1 == p then (p, v) else e)) p = some v := by
  induction fs with
  | nil => simp [fsExists] at h
  | cons e rest ih =>
    rw [fsExists_cons] at h
    simp only [List.map_cons]
    by_cases hq : (e.1 == p) = true
    · rw [if_pos hq, fsLookup_cons, if_pos (by simp)]
    · rw [if_neg hq, fsLookup_cons, if_neg hq]
      rw [Bool.or_eq_true_iff] at h
      rcases h with h | h
      · exact absurd h hq
      · exact ih h

theorem fsLookup_append_single {fs : FS} {p : String} (v : String)
    (h : fsExists fs p = false) :
    fsLookup (fs ++ [(p, v)]) p = some v := by
  induction fs with
  | nil => simp [fsLookup]
  | cons e rest ih =>
    rw [fsExists_cons, Bool.or_eq_false_iff] at h
    rw [List.cons_append, fsLookup_cons, if_neg (by simp [h.1]), ih h.2]

theorem fsLookup_fsWrite_self (fs : FS) (p v : String) :
    fsLookup (fsWrite fs p v) p = some v := by
  unfold fsWrite
  by_cases h : fsExists fs p = true
  · rw [if_pos h]; exact fsLookup_map_write v h
  · rw [if_neg h]
    exact fsLookup_append_single v (by revert h; cases fsExists fs p <;> simp)

theorem fsLookup_fsRemove_self (fs : FS) (p : String) :
    fsLookup (fsRemove fs p) p = none :=
  fsExists_false_lookup (fsExists_fsRemove fs p)

/-- C8: the edit-distance function is symmetric, zero on equal strings, and
the distance from the empty string is the other string's length. -/
theorem str_dist_algebra (a b s : String) :
    str_dist a b = str_dist b a ∧ str_dist a a = 0 ∧
      str_dist "" s = s.length := by
  refine ⟨?_, ?_, ?_⟩
  · rw [str_dist_eq_levRec, str_dist_eq_levRec, levRec_symm]
  · rw [str_dist_eq_levRec]; exact levRec_self _
  · rw [str_dist_eq_levRec]
    have h : ("" : String).data = [] := rfl
    rw [h]
    simp [levRec_nil_left]

/-! ### Scan-loop analysis -/

/-- Every string ends with its own basename. -/
theorem endsWith_basename (s : String) : strEndsWith s (pyBasename s) = true := by
  show ((s.data.reverse.takeWhile (fun c => c != '/')).reverse).isSuffixOf s.data = true
  rw [List.isSuffixOf, List.reverse_reverse]
  exact List.isPrefixOf_iff_prefix.mpr (List.takeWhile_prefix _)

/-- The best candidate after scanning a list of names in order. -/
def bestFold (f : String → Nat) (b : Option (String × Nat)) (l : List String) :
    Option (String × Nat) :=
  l.foldl (bestStep f) b

/-- The fuzzy candidate names of an archive, in listing order: members not
containing `"test"` whose name ends with `fname`. -/
def fuzzyCandidates (fname : String) (arch : Archive) : List String :=
  (arch.map (fun m => m.1)).filter
    (fun n => !containsSub n "test" && strEndsWith n fname)

/-- If `expected` is free of `"test"` and some member carries exactly that
name, the scan ends in the early exact return, whatever came before. -/
theorem scan_hits_exact (expected : String) (exact : Bool) (arch : Archive)
    (htest : containsSub expected "test" = false)
    (hmem : ∃ c, (expected, c) ∈ arch) :
    ∀ best, scanNames expected (pyBasename expected) exact best arch =
      .exactHit expected := by
  induction arch with
  | nil => rcases hmem with ⟨c, hc⟩; simp at hc
  | cons m rest ih =>
    intro best
    rcases hmem with ⟨c, hc⟩
    rcases List.mem_cons.mp hc with hm | hm
    · have hm1 : m.1 = expected := by rw [← hm]
      rw [scanNames]
      rw [if_neg (by rw [hm1, htest]; simp)]
      rw [hm1, endsWith_basename, if_pos rfl, if_pos (by simp)]
    · rw [scanNames]
      by_cases ht : containsSub m.1 "test" = true
      · rw [if_pos ht]; exact ih ⟨c, hm⟩ best
      · rw [if_neg ht]
        by_cases hew : strEndsWith m.1 (pyBasename expected) = true
        · rw [if_pos hew]
          by_cases heq : (m.1 == expected) = true
          · rw [if_pos heq]
            exact congrArg _ (beq_iff_eq.mp heq)
          · rw [if_neg heq]
            by_cases hx : (!exact) = true
            · rw [if_pos hx]; exact ih ⟨c, hm⟩ _
            · rw [if_neg hx]; exact ih ⟨c, hm⟩ best
        · rw [if_neg hew]; exact ih ⟨c, hm⟩ best

/-- In fuzzy mode, when no `"test"`-free member is named `expected`, the
scan never exits early and folds `bestStep` over the candidate names. -/
theorem scan_fuzzy (expected fname : String) (arch : Archive)
    (hne : ∀ m ∈ arch, containsSub m.1 "test" = false → ¬(m.1 = expected)) :
    ∀ best, scanNames expected fname false best arch =
      .done (bestFold (fun n => str_dist expected n) best (fuzzyCandidates fname arch)) := by
  induction arch with
  | nil => intro best; rfl
  | cons m rest ih =>
    intro best
    have hrest : ∀ m' ∈ rest, containsSub m'.1 "test" = false → ¬(m'.1 = expected) :=
      fun m' hm' => hne m' (List.mem_cons_of_mem m hm')
    rw [scanNames]
    by_cases ht : containsSub m.1 "test" = true
    · rw [if_pos ht]
      have hcand : fuzzyCandidates fname (m :: rest) = fuzzyCandidates fname rest := by
        unfold fuzzyCandidates
        rw [List.map_cons, List.filter_cons, if_neg (by simp [ht])]
      rw [hcand]
      exact ih hrest best
    · rw [if_neg ht]
      have ht' : containsSub m.1 "test" = false := by
        revert ht; cases containsSub m.1 "test" <;> simp
      by_cases hew : strEndsWith m.1 fname = true
      · rw [if_pos hew]
        have heq : (m.1 == expected) = false := by
          cases hq : (m.1 == expected) with
          | false => rfl
          | true => exact absurd (beq_iff_eq.mp hq) (hne m (List.mem_cons_self m rest) ht')
        rw [if_neg (by simp [heq])]
        have hnf : (!false) = true := rfl
        rw [if_pos hnf]
        have hcand : fuzzyCandidates fname (m :: rest) = m.1 :: fuzzyCandidates fname rest := by
          unfold fuzzyCandidates
          rw [List.map_cons, List.filter_cons, if_pos (by simp [ht', hew])]
        rw [hcand]
        rw [ih hrest]
        rfl
      · rw [if_neg hew]
        have hcand : fuzzyCandidates fname (m :: rest) = fuzzyCandidates fname rest := by
          unfold fuzzyCandidates
          rw [List.map_cons, List.filter_cons, if_neg (by simp [hew])]
        rw [hcand]
        exact ih hrest best

/-- In exact-only mode, when no member is named `expected`, the scan leaves
the tracked best untouched (nothing is ever recorded). -/
theorem scan_exact_mode (expected fname : String) (arch : Archive)
    (hne : ∀ m ∈ arch, ¬(m.1 = expected)) :
    ∀ best, scanNames expected fname true best arch = .done best := by
  induction arch with
  | nil => intro best; rfl
  | cons m rest ih =>
    intro best
    have hrest : ∀ m' ∈ rest, ¬(m'.1 = expected) :=
      fun m' hm' => hne m' (List.mem_cons_of_mem m hm')
    rw [scanNames]
    by_cases ht : containsSub m.1 "test" = true
    · rw [if_pos ht]; exact ih hrest best
    · rw [if_neg ht]
      by_cases hew : strEndsWith m.1 fname = true
      · rw [if_pos hew]
        have heq : (m.1 == expected) = false := by
          cases hq : (m.1 == expected) with
          | false => rfl
          | true => exact absurd (beq_iff_eq.mp hq) (hne m (List.mem_cons_self m rest))
        rw [if_neg (by simp [heq]), if_neg (by simp)]
        exact ih hrest best
      · rw [if_neg hew]; exact ih hrest best

/-- The early exact return only fires on a `"test"`-free member named
`expected`. -/
theorem scan_exactHit_inv (expected fname : String) (exact : Bool)
    (arch : Archive) :
    ∀ best n, scanNames expected fname exact best arch = .exactHit n →
      containsSub n "test" = false ∧ n = expected := by
  induction arch with
  | nil => intro best n h; simp [scanNames] at h
  | cons m rest ih =>
    intro best n h
    rw [scanNames] at h
    by_cases ht : containsSub m.1 "test" = true
    · rw [if_pos ht] at h; exact ih best n h
    · rw [if_neg ht] at h
      by_cases hew : strEndsWith m.1 fname = true
      · rw [if_pos hew] at h
        by_cases heq : (m.1 == expected) = true
        · rw [if_pos heq] at h
          cases h
          refine ⟨?_, beq_iff_eq.mp heq⟩
          revert ht; cases containsSub m.1 "test" <;> simp
        · rw [if_neg heq] at h
          by_cases hx : (!exact) = true
          · rw [if_pos hx] at h; exact ih _ n h
          · rw [if_neg hx] at h; exact ih best n h
      · rw [if_neg hew] at h; exact ih best n h

/-- The tracked best candidate only ever holds `"test"`-free names. -/
theorem scan_done_inv (expected fname : String) (exact : Bool)
    (arch : Archive) :
    ∀ best, (∀ bp d, best = some (bp, d) → containsSub bp "test" = false) →
      ∀ q dq, scanNames expected fname exact best arch = .done (some (q, dq)) →
        containsSub q "test" = false := by
  induction arch with
  | nil =>
    intro best hbest q dq h
    rw [scanNames] at h
    cases h
    exact hbest q dq rfl
  | cons m rest ih =>
    intro best hbest q dq h
    rw [scanNames] at h
    by_cases ht : containsSub m.1 "test" = true
    · rw [if_pos ht] at h; exact ih best hbest q dq h
    · rw [if_neg ht] at h
      have ht' : containsSub m.1 "test" = false := by
        revert ht; cases containsSub m.1 "test" <;> simp
      by_cases hew : strEndsWith m.1 fname = true
      · rw [if_pos hew] at h
        by_cases heq : (m.1 == expected) = true
        · rw [if_pos heq] at h; cases h
        · rw [if_neg heq] at h
          by_cases hx : (!exact) = true
          · rw [if_pos hx] at h
            refine ih _ ?_ q dq h
            intro bp d hbd
            cases hb : best with
            | none =>
              rw [hb] at hbd
              simp only [bestStep] at hbd
              cases hbd
              exact ht'
            | some bb =>
              rw [hb] at hbd
              simp only [bestStep] at hbd
              by_cases hlt : str_dist expected m.1 < bb.2
              · rw [if_pos hlt] at hbd
                cases hbd
                exact ht'
              · rw [if_neg hlt] at hbd
                have hbb : bb = (bp, d) := Option.some.inj hbd
                rw [hbb] at hb
                exact hbest bp d hb
          · rw [if_neg hx] at h; exact ih best hbest q dq h
      · rw [if_neg hew] at h; exact ih best hbest q dq h

/-! ### The spec's selection rule: minimum distance, first on ties -/

/-- Modelled from the spec: "compute the Levenshtein edit distance …; track
the minimum-distance candidate seen so far.  Ties keep the first minimal
candidate encountered" — the first list element whose value under `f` is a
minimum of the whole list. -/
def specSelect (f : String → Nat) (l : List String) : Option String :=
  l.find? (fun x => l.all (fun y => decide (f x ≤ f y)))

theorem find?_congr_on {α : Type} (l : List α) (p q : α → Bool)
    (h : ∀ x ∈ l, p x = q x) : l.find? p = l.find? q := by
  induction l with
  | nil => rfl
  | cons a rest ih =>
    rw [List.find?_cons, List.find?_cons, h a (List.mem_cons_self a rest)]
    cases hq : q a with
    | true => rfl
    | false => exact ih (fun x hx => h x (List.mem_cons_of_mem _ hx))

theorem specSelect_cons_cons (f : String → Nat) (bp n : String)
    (rest : List String) :
    specSelect f (bp :: n :: rest) =
      if f n < f bp then specSelect f (n :: rest) else specSelect f (bp :: rest) := by
  by_cases hlt : f n < f bp
  · rw [if_pos hlt]
    unfold specSelect
    have hbp : ¬((fun x => (bp :: n :: rest).all fun y => decide (f x ≤ f y)) bp = true) := by
      simp only [List.all_cons, Bool.and_eq_true, decide_eq_true_eq]
      rintro ⟨-, h2, -⟩
      exact absurd h2 (Nat.not_le.mpr hlt)
    rw [@List.find?_cons_of_neg _ (fun x => (bp :: n :: rest).all fun y => decide (f x ≤ f y)) bp (n :: rest) hbp]
    refine find?_congr_on _ _ _ ?_
    intro x hx
    show (bp :: n :: rest).all (fun y => decide (f x ≤ f y)) =
      (n :: rest).all (fun y => decide (f x ≤ f y))
    rw [List.all_cons]
    cases hB : ((n :: rest).all fun y => decide (f x ≤ f y)) with
    | false => rw [Bool.and_false]
    | true =>
      have hxn : f x ≤ f n := by
        have := List.all_eq_true.mp hB n (List.mem_cons_self n rest)
        simpa using this
      have hxbp : decide (f x ≤ f bp) = true := by
        simp only [decide_eq_true_eq]
        exact Nat.le_of_lt (Nat.lt_of_le_of_lt hxn hlt)
      rw [hxbp]
      rfl
  · rw [if_neg hlt]
    have hle : f bp ≤ f n := Nat.not_lt.mp hlt
    unfold specSelect
    cases hA : (rest.all fun y => decide (f bp ≤ f y)) with
    | true =>
      have hbpL : ((fun x => (bp :: n :: rest).all fun y => decide (f x ≤ f y)) bp) = true := by
        simp only [List.all_cons, Bool.and_eq_true, decide_eq_true_eq]
        exact ⟨Nat.le_refl _, hle, hA⟩
      have hbpR : ((fun x => (bp :: rest).all fun y => decide (f x ≤ f y)) bp) = true := by
        simp only [List.all_cons, Bool.and_eq_true, decide_eq_true_eq]
        exact ⟨Nat.le_refl _, hA⟩
      rw [@List.find?_cons_of_pos _ (fun x => (bp :: n :: rest).all fun y => decide (f x ≤ f y)) bp (n :: rest) hbpL,
        @List.find?_cons_of_pos _ (fun x => (bp :: rest).all fun y => decide (f x ≤ f y)) bp rest hbpR]
    | false =>
      have hbpL : ¬((fun x => (bp :: n :: rest).all fun y => decide (f x ≤ f y)) bp = true) := by
        simp only [List.all_cons, Bool.and_eq_true, decide_eq_true_eq]
        rintro ⟨-, -, h3⟩
        rw [hA] at h3
        cases h3
      have hbpR : ¬((fun x => (bp :: rest).all fun y => decide (f x ≤ f y)) bp = true) := by
        simp only [List.all_cons, Bool.and_eq_true, decide_eq_true_eq]
        rintro ⟨-, h3⟩
        rw [hA] at h3
        cases h3
      rw [@List.find?_cons_of_neg _ (fun x => (bp :: n :: rest).all fun y => decide (f x ≤ f y)) bp (n :: rest) hbpL,
        @List.find?_cons_of_neg _ (fun x => (bp :: rest).all fun y => decide (f x ≤ f y)) bp rest hbpR]
      have hPn : ¬((fun x => (bp :: n :: rest).all fun y => decide (f x ≤ f y)) n = true) := by
        simp only [List.all_cons, Bool.and_eq_true, decide_eq_true_eq]
        rintro ⟨h1, -, h3⟩
        have h2 : ¬(rest.all (fun y => decide (f bp ≤ f y)) = true) := by
          rw [hA]; simp
        rw [List.all_eq_true] at h2
        obtain ⟨y, hy2⟩ := not_forall.mp h2
        obtain ⟨hy, hylt⟩ := Classical.not_imp.mp hy2
        have hy1 : f y < f bp := by
          have hnot : ¬f bp ≤ f y := fun hc => hylt (by simpa using hc)
          omega
        have hy2 : f n ≤ f y := by
          have := List.all_eq_true.mp h3 y hy
          simpa using this
        omega
      rw [@List.find?_cons_of_neg _ (fun x => (bp :: n :: rest).all fun y => decide (f x ≤ f y)) n rest hPn]
      refine find?_congr_on _ _ _ ?_
      intro x hx
      show (bp :: n :: rest).all (fun y => decide (f x ≤ f y)) =
        (bp :: rest).all (fun y => decide (f x ≤ f y))
      rw [List.all_cons, List.all_cons, List.all_cons]
      cases hxbp : decide (f x ≤ f bp) with
      | false => rw [Bool.false_and, Bool.false_and]
      | true =>
        rw [Bool.true_and, Bool.true_and]
        have hxn : decide (f x ≤ f n) = true := by
          simp only [decide_eq_true_eq] at hxbp ⊢
          exact Nat.le_trans hxbp hle
        rw [hxn, Bool.true_and]

theorem bestFold_eq (f : String → Nat) :
    ∀ (l : List String) (bp : String),
      bestFold f (some (bp, f bp)) l =
        (specSelect f (bp :: l)).map (fun q => (q, f q)) := by
  intro l
  induction l with
  | nil =>
    intro bp
    have h : specSelect f [bp] = some bp := by
      unfold specSelect
      refine List.find?_cons_of_pos _ ?_
      simp
    show some (bp, f bp) = _
    rw [h]
    rfl
  | cons n rest ih =>
    intro bp
    show bestFold f (bestStep f (some (bp, f bp)) n) rest = _
    rw [specSelect_cons_cons]
    by_cases hlt : f n < f bp
    · rw [if_pos hlt]
      have hstep : bestStep f (some (bp, f bp)) n = some (n, f n) := by
        show (if f n < f bp then some (n, f n) else some (bp, f bp)) = some (n, f n)
        rw [if_pos hlt]
      rw [hstep]
      exact ih n
    · rw [if_neg hlt]
      have hstep : bestStep f (some (bp, f bp)) n = some (bp, f bp) := by
        show (if f n < f bp then some (n, f n) else some (bp, f bp)) = some (bp, f bp)
        rw [if_neg hlt]
      rw [hstep]
      exact ih bp

/-- The code's running-best fold computes exactly the spec's selection rule:
the first candidate attaining the minimum distance. -/
theorem bestFold_specSelect (f : String → Nat) (l : List String) :
    bestFold f none l = (specSelect f l).map (fun q => (q, f q)) := by
  cases l with
  | nil => rfl
  | cons n rest =>
    show bestFold f (bestStep f none n) rest = _
    have hstep : bestStep f none n = some (n, f n) := rfl
    rw [hstep]
    exact bestFold_eq f rest n

/-! ### Run characterizations: one lemma per execution path -/

/-- An exact hit whose member content decodes: written file, `(True,
expected)`. -/
theorem run_exactHit_ok (target : String) (fs : FS) (archivePath : String)
    (arch : Archive) (expected : String) (exact : Bool) (pre : String)
    (name s : String)
    (hscan : scanNames expected (pyBasename expected) exact none arch =
      .exactHit name)
    (hrd : readName arch name = some (some s)) :
    extract_files target fs archivePath (some arch) expected exact pre =
      (.ok (true, some expected),
        fsWrite (fsWrite (fsRemoveIf fs (targetPathOf target pre expected))
            (targetPathOf target pre expected) "")
          (targetPathOf target pre expected) s) := by
  simp only [extract_files, hscan]
  rw [hrd]
  rfl

/-- An exact hit on undecodable content: `DecodeError` after the target was
truncated by `open`. -/
theorem run_exactHit_decode (target : String) (fs : FS) (archivePath : String)
    (arch : Archive) (expected : String) (exact : Bool) (pre : String)
    (name : String)
    (hscan : scanNames expected (pyBasename expected) exact none arch =
      .exactHit name)
    (hrd : readName arch name = some none) :
    extract_files target fs archivePath (some arch) expected exact pre =
      (.error .decodeError,
        fsWrite (fsRemoveIf fs (targetPathOf target pre expected))
          (targetPathOf target pre expected) "") := by
  simp only [extract_files, hscan]
  rw [hrd]
  rfl

/-- An exact hit on a name absent from the read map (unreachable for names
from the listing): `KeyError`. -/
theorem run_exactHit_key (target : String) (fs : FS) (archivePath : String)
    (arch : Archive) (expected : String) (exact : Bool) (pre : String)
    (name : String)
    (hscan : scanNames expected (pyBasename expected) exact none arch =
      .exactHit name)
    (hrd : readName arch name = none) :
    extract_files target fs archivePath (some arch) expected exact pre =
      (.error .keyError,
        fsRemoveIf fs (targetPathOf target pre expected)) := by
  simp only [extract_files, hscan]
  rw [hrd]
  rfl

/-- Fuzzy mode, scan finished with no candidate: `MemberNotFound`. -/
theorem run_doneNone (target : String) (fs : FS) (archivePath : String)
    (arch : Archive) (expected : String) (pre : String)
    (hscan : scanNames expected (pyBasename expected) false none arch =
      .done none) :
    extract_files target fs archivePath (some arch) expected false pre =
      (.error (.memberNotFound
          (pyBasename expected ++ " not found in " ++ archivePath)),
        fsRemoveIf fs (targetPathOf target pre expected)) := by
  simp only [extract_files, hscan]
  rfl

/-- Fuzzy mode, best candidate named `""` (falsy in Python):
`MemberNotFound`. -/
theorem run_doneSome_empty (target : String) (fs : FS) (archivePath : String)
    (arch : Archive) (expected : String) (pre : String) (bb : String × Nat)
    (hscan : scanNames expected (pyBasename expected) false none arch =
      .done (some bb))
    (hbe : (bb.1 == "") = true) :
    extract_files target fs archivePath (some arch) expected false pre =
      (.error (.memberNotFound
          (pyBasename expected ++ " not found in " ++ archivePath)),
        fsRemoveIf fs (targetPathOf target pre expected)) := by
  simp only [extract_files, hscan]
  rw [if_pos hbe]
  rfl

/-- Fuzzy mode, best candidate read back missing: `KeyError`. -/
theorem run_doneSome_key (target : String) (fs : FS) (archivePath : String)
    (arch : Archive) (expected : String) (pre : String) (bb : String × Nat)
    (hscan : scanNames expected (pyBasename expected) false none arch =
      .done (some bb))
    (hbe : (bb.1 == "") = false)
    (hrd : readName arch bb.1 = none) :
    extract_files target fs archivePath (some arch) expected false pre =
      (.error .keyError,
        fsRemoveIf fs (targetPathOf target pre expected)) := by
  simp only [extract_files, hscan]
  have hne : ¬((bb.1 == "") = true) := by simp [hbe]
  rw [if_neg hne, hrd]
  rfl

/-- Fuzzy mode, best candidate undecodable: `DecodeError` after truncation. -/
theorem run_doneSome_decode (target : String) (fs : FS) (archivePath : String)
    (arch : Archive) (expected : String) (pre : String) (bb : String × Nat)
    (hscan : scanNames expected (pyBasename expected) false none arch =
      .done (some bb))
    (hbe : (bb.1 == "") = false)
    (hrd : readName arch bb.1 = some none) :
    extract_files target fs archivePath (some arch) expected false pre =
      (.error .decodeError,
        fsWrite (fsRemoveIf fs (targetPathOf target pre expected))
          (targetPathOf target pre expected) "") := by
  simp only [extract_files, hscan]
  have hne : ¬((bb.1 == "") = true) := by simp [hbe]
  rw [if_neg hne, hrd]
  rfl

/-- Fuzzy mode, best candidate written: `(False, best_path)`. -/
theorem run_doneSome_ok (target : String) (fs : FS) (archivePath : String)
    (arch : Archive) (expected : String) (pre : String) (bb : String × Nat)
    (s : String)
    (hscan : scanNames expected (pyBasename expected) false none arch =
      .done (some bb))
    (hbe : (bb.1 == "") = false)
    (hrd : readName arch bb.1 = some (some s)) :
    extract_files target fs archivePath (some arch) expected false pre =
      (.ok (false, some bb.1),
        fsWrite (fsWrite (fsRemoveIf fs (targetPathOf target pre expected))
            (targetPathOf target pre expected) "")
          (targetPathOf target pre expected) s) := by
  simp only [extract_files, hscan]
  have hne : ¬((bb.1 == "") = true) := by simp [hbe]
  rw [if_neg hne, hrd]
  rfl

/-- Exact-only mode after a completed scan: `(False, best_path)` with no
write. -/
theorem run_doneExact (target : String) (fs : FS) (archivePath : String)
    (arch : Archive) (expected : String) (pre : String)
    (best : Option (String × Nat))
    (hscan : scanNames expected (pyBasename expected) true none arch =
      .done best) :
    extract_files target fs archivePath (some arch) expected true pre =
      (.ok (false, best.map (fun b => b.1)),
        fsRemoveIf fs (targetPathOf target pre expected)) := by
  simp only [extract_files, hscan]
  rfl

/-! ### Claim theorems -/

/-- C7: with `exactOnly = true` and no member named `expectedPath`, the call
returns `(matched = false, sourceMemberPath = none)`, raises no error, and
writes no file — afterwards nothing exists at the target path (the directory
change is limited to the line-101-103 removal of a pre-existing target). -/
theorem extract_exactOnly_no_hit (target : String) (fs : FS)
    (archivePath : String) (arch : Archive) (expected pre : String)
    (hno : ∀ m ∈ arch, ¬(m.1 = expected)) :
    extract_files target fs archivePath (some arch) expected true pre =
      (.ok (false, none), fsRemoveIf fs (targetPathOf target pre expected)) ∧
    fsLookup
      (extract_files target fs archivePath (some arch) expected true pre).2
      (targetPathOf target pre expected) = none := by
  have hscan := scan_exact_mode expected (pyBasename expected) arch hno none
  have h1 : extract_files target fs archivePath (some arch) expected true pre =
      (.ok (false, none), fsRemoveIf fs (targetPathOf target pre expected)) := by
    simp only [extract_files, hscan]
    rfl
  refine ⟨h1, ?_⟩
  rw [h1, fsRemoveIf_eq_fsRemove]
  exact fsLookup_fsRemove_self fs _

/-- Witness for C7 at a concrete input (the spec's own scenario: fuzzy mode
off and no exact hit). -/
theorem extract_exactOnly_no_hit_witness :
    extract_files "./" [("./alice42_Main.txt", "old")] "a.zip"
        (some [("other/Main.txt", some "Y")]) "proj1/Main.txt" true "alice42_" =
      (.ok (false, none),
        fsRemoveIf [("./alice42_Main.txt", "old")]
          (targetPathOf "./" "alice42_" "proj1/Main.txt")) ∧
    fsLookup
      (extract_files "./" [("./alice42_Main.txt", "old")] "a.zip"
        (some [("other/Main.txt", some "Y")]) "proj1/Main.txt" true "alice42_").2
      (targetPathOf "./" "alice42_" "proj1/Main.txt") = none :=
  extract_exactOnly_no_hit "./" [("./alice42_Main.txt", "old")] "a.zip"
    [("other/Main.txt", some "Y")] "proj1/Main.txt" "alice42_" (by decide)

/-- C6: in fuzzy mode, when no non-excluded member ends with the base
filename (and none equals `expectedPath`), the call fails with
`MemberNotFound` whose message names the missing base filename and the
archive. -/
theorem extract_fuzzy_no_candidates (target : String) (fs : FS)
    (archivePath : String) (arch : Archive) (expected pre : String)
    (hno : ∀ m ∈ arch, containsSub m.1 "test" = false →
      strEndsWith m.1 (pyBasename expected) = false ∧ ¬(m.1 = expected)) :
    extract_files target fs archivePath (some arch) expected false pre =
      (.error (.memberNotFound
          (pyBasename expected ++ " not found in " ++ archivePath)),
        fsRemoveIf fs (targetPathOf target pre expected)) := by
  have hne : ∀ m ∈ arch, containsSub m.1 "test" = false → ¬(m.1 = expected) :=
    fun m hm ht => (hno m hm ht).2
  have hscan := scan_fuzzy expected (pyBasename expected) arch hne none
  have hcand : fuzzyCandidates (pyBasename expected) arch = [] := by
    unfold fuzzyCandidates
    rw [List.filter_eq_nil_iff]
    intro n hn
    obtain ⟨m, hm, rfl⟩ := List.mem_map.mp hn
    by_cases ht : containsSub m.1 "test" = true
    · simp [ht]
    · have ht' : containsSub m.1 "test" = false := by
        revert ht; cases containsSub m.1 "test" <;> simp
      simp [ht', (hno m hm ht').1]
  rw [hcand] at hscan
  simp only [extract_files, hscan]
  rfl

/-- Witness for C6 at a concrete input (the spec's own scenario: the only
name match is excluded by the `test` filter). -/
theorem extract_fuzzy_no_candidates_witness :
    extract_files "./" [] "a.zip" (some [("proj1/tests/Main.txt", some "T")])
        "Main.txt" false "alice42_" =
      (.error (.memberNotFound
          (pyBasename "Main.txt" ++ " not found in " ++ "a.zip")),
        fsRemoveIf [] (targetPathOf "./" "alice42_" "Main.txt")) :=
  extract_fuzzy_no_candidates "./" [] "a.zip"
    [("proj1/tests/Main.txt", some "T")] "Main.txt" "alice42_" (by decide)

/-- In exact-only mode the tracked best is never updated: a completed scan
returns the initial best. -/
theorem scan_exact_best_inv (expected fname : String) (arch : Archive) :
    ∀ best b', scanNames expected fname true best arch = .done b' → b' = best := by
  induction arch with
  | nil =>
    intro best b' h
    rw [scanNames] at h
    cases h
    rfl
  | cons m rest ih =>
    intro best b' h
    rw [scanNames] at h
    by_cases ht : containsSub m.1 "test" = true
    · rw [if_pos ht] at h; exact ih best b' h
    · rw [if_neg ht] at h
      by_cases hew : strEndsWith m.1 fname = true
      · rw [if_pos hew] at h
        by_cases heq : (m.1 == expected) = true
        · rw [if_pos heq] at h; cases h
        · rw [if_neg heq, if_neg (by simp)] at h
          exact ih best b' h
      · rw [if_neg hew] at h; exact ih best b' h

/-- C3 (amended): when `expectedPath` is free of `"test"` and the archive's
sole member with that exact name has decodable content `s`, the call selects
it — whatever the listing order and whatever other fuzzy candidates exist —
writes `s` to the target path and returns `matched = true`; and any call
whose result reports a selected member different from `expectedPath` is a
fuzzy hit: `matched = false` yet a file was written at the target path. -/
theorem extract_exact_wins (expected : String) :
    (∀ (target : String) (fs : FS) (archivePath : String) (arch : Archive)
        (pre : String) (exact : Bool) (s : String),
      containsSub expected "test" = false →
      arch.filter (fun m => m.1 == expected) = [(expected, some s)] →
      extract_files target fs archivePath (some arch) expected exact pre =
        (.ok (true, some expected),
          fsWrite (fsWrite (fsRemoveIf fs (targetPathOf target pre expected))
              (targetPathOf target pre expected) "")
            (targetPathOf target pre expected) s)) ∧
    (∀ (target : String) (fs : FS) (archivePath : String) (arch : Archive)
        (pre : String) (exact : Bool) (b : Bool) (q : String) (fs' : FS),
      extract_files target fs archivePath (some arch) expected exact pre =
        (.ok (b, some q), fs') → ¬(q = expected) →
      b = false ∧
        ∃ v, fsLookup fs' (targetPathOf target pre expected) = some v) := by
  constructor
  · intro target fs archivePath arch pre exact s htest hfilter
    have hmem : ∃ c, (expected, c) ∈ arch := by
      refine ⟨some s, @List.mem_of_mem_filter _ (fun m => m.1 == expected) (expected, some s) arch ?_⟩
      rw [hfilter]
      exact List.mem_singleton.mpr rfl
    have hscan := scan_hits_exact expected exact arch htest hmem none
    have hread : readName arch expected = some (some s) := by
      unfold readName
      rw [hfilter]
      rfl
    simp only [extract_files, hscan, hread]
    rfl
  · intro target fs archivePath arch pre exact b q fs' h hq
    cases hscan : scanNames expected (pyBasename expected) exact none arch with
    | exactHit name =>
      cases hrd : readName arch name with
      | none => rw [run_exactHit_key _ _ _ _ _ _ _ _ hscan hrd] at h; cases h
      | some content =>
        cases content with
        | none => rw [run_exactHit_decode _ _ _ _ _ _ _ _ hscan hrd] at h; cases h
        | some v =>
          rw [run_exactHit_ok _ _ _ _ _ _ _ _ _ hscan hrd] at h
          have h1 := (Prod.mk.injEq _ _ _ _).mp h
          have h2 := (Except.ok.injEq _ _).mp h1.1
          have hqe : some expected = some q := ((Prod.mk.injEq _ _ _ _).mp h2).2
          exact absurd (Option.some.inj hqe).symm hq
    | done best =>
      cases hx : exact with
      | true =>
        subst hx
        have hb : best = none := scan_exact_best_inv _ _ _ none best hscan
        subst hb
        rw [run_doneExact _ _ _ _ _ _ _ hscan] at h
        cases h
      | false =>
        subst hx
        cases hbest : best with
        | none =>
          subst hbest
          rw [run_doneNone _ _ _ _ _ _ hscan] at h
          cases h
        | some bb =>
          subst hbest
          by_cases hbe : (bb.1 == "") = true
          · rw [run_doneSome_empty _ _ _ _ _ _ _ hscan hbe] at h; cases h
          · have hbe' : (bb.1 == "") = false := by
              revert hbe; cases (bb.1 == "") <;> simp
            cases hrd : readName arch bb.1 with
            | none => rw [run_doneSome_key _ _ _ _ _ _ _ hscan hbe' hrd] at h; cases h
            | some content =>
              cases content with
              | none =>
                rw [run_doneSome_decode _ _ _ _ _ _ _ hscan hbe' hrd] at h
                cases h
              | some v =>
                rw [run_doneSome_ok _ _ _ _ _ _ _ _ hscan hbe' hrd] at h
                have h1 := (Prod.mk.injEq _ _ _ _).mp h
                have h2 := (Except.ok.injEq _ _).mp h1.1
                have hbv : b = false := ((Prod.mk.injEq _ _ _ _).mp h2).1.symm
                refine ⟨hbv, v, ?_⟩
                rw [← h1.2]
                exact fsLookup_fsWrite_self _ _ _

/-- C4: a member whose name contains `"test"` is never the selected member:
any result reporting a selected member reports a `"test"`-free name, the
early exact return never fires on a `"test"`-containing name, and the
tracked fuzzy candidate is never a `"test"`-containing name. -/
theorem extract_never_selects_test (target : String) (fs : FS)
    (archivePath : String) (arch : Archive) (expected : String)
    (exact : Bool) (pre : String) :
    (∀ b q fs',
      extract_files target fs archivePath (some arch) expected exact pre =
        (.ok (b, some q), fs') → containsSub q "test" = false) ∧
    (∀ n, scanNames expected (pyBasename expected) exact none arch =
      .exactHit n → containsSub n "test" = false) ∧
    (∀ q d, scanNames expected (pyBasename expected) exact none arch =
      .done (some (q, d)) → containsSub q "test" = false) := by
  refine ⟨?_, ?_, ?_⟩
  · intro b q fs' h
    cases hscan : scanNames expected (pyBasename expected) exact none arch with
    | exactHit name =>
      obtain ⟨hnt, hne⟩ := scan_exactHit_inv _ _ _ _ none name hscan
      cases hrd : readName arch name with
      | none => rw [run_exactHit_key _ _ _ _ _ _ _ _ hscan hrd] at h; cases h
      | some content =>
        cases content with
        | none => rw [run_exactHit_decode _ _ _ _ _ _ _ _ hscan hrd] at h; cases h
        | some v =>
          rw [run_exactHit_ok _ _ _ _ _ _ _ _ _ hscan hrd] at h
          have h1 := (Prod.mk.injEq _ _ _ _).mp h
          have h2 := (Except.ok.injEq _ _).mp h1.1
          have hqe : expected = q :=
            Option.some.inj ((Prod.mk.injEq _ _ _ _).mp h2).2
          rw [← hqe, ← hne]
          exact hnt
    | done best =>
      cases hx : exact with
      | true =>
        subst hx
        have hb : best = none := scan_exact_best_inv _ _ _ none best hscan
        subst hb
        rw [run_doneExact _ _ _ _ _ _ _ hscan] at h
        cases h
      | false =>
        subst hx
        cases hbest : best with
        | none =>
          subst hbest
          rw [run_doneNone _ _ _ _ _ _ hscan] at h
          cases h
        | some bb =>
          subst hbest
          have hinv := scan_done_inv expected (pyBasename expected) false arch
            none (by intro bp d hbd; cases hbd) bb.1 bb.2 (by rw [hscan])
          by_cases hbe : (bb.1 == "") = true
          · rw [run_doneSome_empty _ _ _ _ _ _ _ hscan hbe] at h; cases h
          · have hbe' : (bb.1 == "") = false := by
              revert hbe; cases (bb.1 == "") <;> simp
            cases hrd : readName arch bb.1 with
            | none => rw [run_doneSome_key _ _ _ _ _ _ _ hscan hbe' hrd] at h; cases h
            | some content =>
              cases content with
              | none =>
                rw [run_doneSome_decode _ _ _ _ _ _ _ hscan hbe' hrd] at h
                cases h
              | some v =>
                rw [run_doneSome_ok _ _ _ _ _ _ _ _ hscan hbe' hrd] at h
                have h1 := (Prod.mk.injEq _ _ _ _).mp h
                have h2 := (Except.ok.injEq _ _).mp h1.1
                have hqe : bb.1 = q :=
                  Option.some.inj ((Prod.mk.injEq _ _ _ _).mp h2).2
                rw [← hqe]
                exact hinv
  · intro n h
    exact (scan_exactHit_inv _ _ _ _ none n h).1
  · intro q d h
    exact scan_done_inv expected (pyBasename expected) exact arch none
      (by intro bp d' hbd; cases hbd) q d h

/-- Witness for C4 at concrete inputs: a `test` member is passed over both
when it is a name match and in favour of a `"test"`-free candidate. -/
theorem extract_never_selects_test_witness :
    containsSub "src/Main.txt" "test" = false ∧
    containsSub "proj1/Main.txt" "test" = false ∧
    containsSub "a/Main.txt" "test" = false :=
  ⟨(extract_never_selects_test "./" [] "a.zip"
      [("tests/Main.txt", some "T"), ("src/Main.txt", some "S")]
      "Main.txt" false "u_").1 false "src/Main.txt"
      [("./u_Main.txt", "S")] (by decide),
   (extract_never_selects_test "./" [] "a.zip"
      [("proj1/Main.txt", some "X")] "proj1/Main.txt" false "u_").2.1
      "proj1/Main.txt" (by decide),
   (extract_never_selects_test "./" [] "a.zip"
      [("a/Main.txt", some "A")] "Main.txt" false "u_").2.2
      "a/Main.txt" 2 (by decide)⟩

/-- A nonempty list of names has an element of minimum value under `f`. -/
theorem exists_min_elem (f : String → Nat) :
    ∀ l : List String, l ≠ [] → ∃ q, q ∈ l ∧ ∀ y ∈ l, f q ≤ f y := by
  intro l
  induction l with
  | nil => intro h; exact absurd rfl h
  | cons x rest ih =>
    intro _
    cases rest with
    | nil =>
      refine ⟨x, List.mem_cons_self x [], ?_⟩
      intro y hy
      rcases List.mem_cons.mp hy with h | h
      · rw [h]
      · simp at h
    | cons a b =>
      obtain ⟨q, hq, hmin⟩ := ih (by simp)
      by_cases hle : f x ≤ f q
      · refine ⟨x, List.mem_cons_self x (a :: b), ?_⟩
        intro y hy
        rcases List.mem_cons.mp hy with h | h
        · rw [h]
        · exact Nat.le_trans hle (hmin y h)
      · refine ⟨q, List.mem_cons_of_mem x hq, ?_⟩
        intro y hy
        rcases List.mem_cons.mp hy with h | h
        · rw [h]; exact Nat.le_of_lt (Nat.not_le.mp hle)
        · exact hmin y h

/-- A nonempty candidate list always yields a selection. -/
theorem specSelect_isSome (f : String → Nat) (l : List String) (h : l ≠ []) :
    ∃ q, specSelect f l = some q := by
  obtain ⟨q, hq, hmin⟩ := exists_min_elem f l h
  unfold specSelect
  have : ∃ x, x ∈ l ∧ (l.all fun y => decide (f x ≤ f y)) = true :=
    ⟨q, hq, List.all_eq_true.mpr (fun y hy => by simpa using hmin y hy)⟩
  cases hfind : l.find? (fun x => l.all fun y => decide (f x ≤ f y)) with
  | some r => exact ⟨r, rfl⟩
  | none =>
    exfalso
    obtain ⟨x, hx, hpx⟩ := this
    have := List.find?_eq_none.mp hfind x hx
    rw [hpx] at this
    exact this rfl

/-- C5: with fuzzy mode on and no exact hit possible, the selected member is
the first minimum-Levenshtein-distance candidate (ties keep the first in
scan order), and the written result reports exactly that member. -/
theorem extract_fuzzy_selects_first_min (target : String) (fs : FS)
    (archivePath : String) (arch : Archive) (expected pre : String)
    (hne : ∀ m ∈ arch, containsSub m.1 "test" = false → ¬(m.1 = expected))
    (hcand : fuzzyCandidates (pyBasename expected) arch ≠ []) :
    ∃ q, specSelect (fun n => str_dist expected n)
        (fuzzyCandidates (pyBasename expected) arch) = some q ∧
      scanNames expected (pyBasename expected) false none arch =
        .done (some (q, str_dist expected q)) ∧
      (∀ s, (q == "") = false → readName arch q = some (some s) →
        extract_files target fs archivePath (some arch) expected false pre =
          (.ok (false, some q),
            fsWrite (fsWrite (fsRemoveIf fs (targetPathOf target pre expected))
                (targetPathOf target pre expected) "")
              (targetPathOf target pre expected) s)) := by
  obtain ⟨q, hsel⟩ :=
    specSelect_isSome (fun n => str_dist expected n)
      (fuzzyCandidates (pyBasename expected) arch) hcand
  refine ⟨q, hsel, ?_, ?_⟩
  · have hscan := scan_fuzzy expected (pyBasename expected) arch hne none
    rw [bestFold_specSelect, hsel] at hscan
    exact hscan
  · intro s hqe hrd
    have hscan := scan_fuzzy expected (pyBasename expected) arch hne none
    rw [bestFold_specSelect, hsel] at hscan
    exact run_doneSome_ok _ _ _ _ _ _ (q, str_dist expected q) s hscan hqe hrd

set_option maxRecDepth 4096 in
/-- Witness for C5 at a concrete input with a distance tie: candidates
`aa/Main.txt` and `bb/Main.txt` are both at distance 2 from `cc/Main.txt`;
the first is kept. -/
theorem extract_fuzzy_selects_first_min_witness :
    specSelect (fun n => str_dist "cc/Main.txt" n)
        (fuzzyCandidates (pyBasename "cc/Main.txt")
          [("x/tests/Main.txt", some "T"), ("aa/Main.txt", some "A"),
            ("bb/Main.txt", some "B")]) = some "aa/Main.txt" ∧
    scanNames "cc/Main.txt" (pyBasename "cc/Main.txt") false none
        [("x/tests/Main.txt", some "T"), ("aa/Main.txt", some "A"),
          ("bb/Main.txt", some "B")] =
      .done (some ("aa/Main.txt", str_dist "cc/Main.txt" "aa/Main.txt")) ∧
    extract_files "./" [] "a.zip"
        (some [("x/tests/Main.txt", some "T"), ("aa/Main.txt", some "A"),
          ("bb/Main.txt", some "B")]) "cc/Main.txt" false "u_" =
      (.ok (false, some "aa/Main.txt"),
        fsWrite (fsWrite (fsRemoveIf [] (targetPathOf "./" "u_" "cc/Main.txt"))
            (targetPathOf "./" "u_" "cc/Main.txt") "")
          (targetPathOf "./" "u_" "cc/Main.txt") "A") := by
  obtain ⟨q, h1, h2, h3⟩ :=
    extract_fuzzy_selects_first_min "./" [] "a.zip"
      [("x/tests/Main.txt", some "T"), ("aa/Main.txt", some "A"),
        ("bb/Main.txt", some "B")] "cc/Main.txt" "u_"
      (by decide) (by decide)
  have hq : q = "aa/Main.txt" := by
    have hc : specSelect (fun n => str_dist "cc/Main.txt" n)
        (fuzzyCandidates (pyBasename "cc/Main.txt")
          [("x/tests/Main.txt", some "T"), ("aa/Main.txt", some "A"),
            ("bb/Main.txt", some "B")]) = some "aa/Main.txt" := by decide
    exact Option.some.inj (h1.symm.trans hc)
  subst hq
  exact ⟨h1, h2, h3 "A" (by decide) (by decide)⟩

theorem fsRemoveIf_fsRemoveIf (fs : FS) (p : String) :
    fsRemoveIf (fsRemoveIf fs p) p = fsRemoveIf fs p := by
  simp only [fsRemoveIf_eq_fsRemove, fsRemove_fsRemove]

theorem truncate_idem (fs : FS) (p : String) :
    fsWrite (fsRemoveIf (fsWrite (fsRemoveIf fs p) p "") p) p "" =
      fsWrite (fsRemoveIf fs p) p "" := by
  simp only [fsRemoveIf_eq_fsRemove, fsRemove_fsWrite, fsRemove_fsRemove]

theorem write_idem (fs : FS) (p s : String) :
    fsWrite (fsWrite
        (fsRemoveIf (fsWrite (fsWrite (fsRemoveIf fs p) p "") p s) p) p "") p s =
      fsWrite (fsWrite (fsRemoveIf fs p) p "") p s := by
  simp only [fsRemoveIf_eq_fsRemove, fsRemove_fsWrite, fsRemove_fsRemove]

/-- C2 counterexample: a request that ends in the no-match result (fuzzy off,
no exact hit) does change the output directory — the pre-existing file at
the would-be target path `./u_Main.txt` has been deleted when the call
returns. -/
theorem extract_failure_frame_counterexample :
    extract_files "./" [("./u_Main.txt", "old")] "a.zip" (some [])
        "Main.txt" true "u_" = (.ok (false, none), []) ∧
    fsLookup [("./u_Main.txt", "old")] (targetPathOf "./" "u_" "Main.txt") =
      some "old" ∧
    fsLookup ([] : FS) (targetPathOf "./" "u_" "Main.txt") = none := by
  refine ⟨?_, ?_, ?_⟩ <;> decide

/-- Frame analysis shared by the failure-path results: how each failing or
no-match outcome relates the final directory to the initial one. -/
theorem extract_frame_cases (target : String) (fs : FS)
    (archivePath : String) (archOpen : Option Archive) (expected : String)
    (exact : Bool) (pre : String) :
    ∀ r w, extract_files target fs archivePath archOpen expected exact pre =
        (r, w) →
      (r = .error .archiveOpen → w = fs) ∧
      (∀ msg, r = .error (.memberNotFound msg) →
        w = fsRemoveIf fs (targetPathOf target pre expected)) ∧
      (r = .error .decodeError →
        w = fsWrite (fsRemoveIf fs (targetPathOf target pre expected))
              (targetPathOf target pre expected) "") ∧
      (r = .ok (false, none) →
        w = fsRemoveIf fs (targetPathOf target pre expected)) := by
  intro r w hrw
  cases archOpen with
  | none =>
    cases hrw
    exact ⟨fun _ => rfl, fun msg h => by simp at h, fun h => by simp at h,
      fun h => by simp at h⟩
  | some arch =>
    cases hscan : scanNames expected (pyBasename expected) exact none arch with
    | exactHit name =>
      cases hrd : readName arch name with
      | none =>
        rw [run_exactHit_key _ _ _ _ _ _ _ _ hscan hrd] at hrw
        cases hrw
        exact ⟨fun h => by simp at h, fun msg h => by simp at h,
          fun h => by simp at h, fun h => by simp at h⟩
      | some content =>
        cases content with
        | none =>
          rw [run_exactHit_decode _ _ _ _ _ _ _ _ hscan hrd] at hrw
          cases hrw
          exact ⟨fun h => by simp at h, fun msg h => by simp at h,
            fun _ => rfl, fun h => by simp at h⟩
        | some v =>
          rw [run_exactHit_ok _ _ _ _ _ _ _ _ _ hscan hrd] at hrw
          cases hrw
          exact ⟨fun h => by simp at h, fun msg h => by simp at h,
            fun h => by simp at h, fun h => by simp at h⟩
    | done best =>
      cases hx : exact with
      | true =>
        subst hx
        rw [run_doneExact _ _ _ _ _ _ _ hscan] at hrw
        cases hrw
        exact ⟨fun h => by simp at h, fun msg h => by simp at h,
          fun h => by simp at h, fun _ => rfl⟩
      | false =>
        subst hx
        cases hbest : best with
        | none =>
          subst hbest
          rw [run_doneNone _ _ _ _ _ _ hscan] at hrw
          cases hrw
          exact ⟨fun h => by simp at h, fun msg _ => rfl,
            fun h => by simp at h, fun h => by simp at h⟩
        | some bb =>
          subst hbest
          by_cases hbe : (bb.1 == "") = true
          · rw [run_doneSome_empty _ _ _ _ _ _ _ hscan hbe] at hrw
            cases hrw
            exact ⟨fun h => by simp at h, fun msg _ => rfl,
              fun h => by simp at h, fun h => by simp at h⟩
          · have hbe' : (bb.1 == "") = false := by
              revert hbe; cases (bb.1 == "") <;> simp
            cases hrd : readName arch bb.1 with
            | none =>
              rw [run_doneSome_key _ _ _ _ _ _ _ hscan hbe' hrd] at hrw
              cases hrw
              exact ⟨fun h => by simp at h, fun msg h => by simp at h,
                fun h => by simp at h, fun h => by simp at h⟩
            | some content =>
              cases content with
              | none =>
                rw [run_doneSome_decode _ _ _ _ _ _ _ hscan hbe' hrd] at hrw
                cases hrw
                exact ⟨fun h => by simp at h, fun msg h => by simp at h,
                  fun _ => rfl, fun h => by simp at h⟩
              | some v =>
                rw [run_doneSome_ok _ _ _ _ _ _ _ _ hscan hbe' hrd] at hrw
                cases hrw
                exact ⟨fun h => by simp at h, fun msg h => by simp at h,
                  fun h => by simp at h, fun h => by simp at h⟩

/-- C2 (amended): a failed or no-match request writes no file content, but
the directory is not untouched: any pre-existing file at the target path is
removed at the start, a `DecodeError` additionally leaves an empty file at
the target, and only an `ArchiveOpenError` (raised before the removal)
leaves the directory fully unchanged. -/
theorem extract_failure_frame (target : String) (fs : FS)
    (archivePath : String) (archOpen : Option Archive) (expected : String)
    (exact : Bool) (pre : String) :
    ∀ r w, extract_files target fs archivePath archOpen expected exact pre =
        (r, w) →
      (r = .error .archiveOpen → w = fs) ∧
      (∀ msg, r = .error (.memberNotFound msg) →
        w = fsRemoveIf fs (targetPathOf target pre expected)) ∧
      (r = .error .decodeError →
        w = fsWrite (fsRemoveIf fs (targetPathOf target pre expected))
              (targetPathOf target pre expected) "") ∧
      (r = .ok (false, none) →
        w = fsRemoveIf fs (targetPathOf target pre expected)) :=
  extract_frame_cases target fs archivePath archOpen expected exact pre

/-- Witness for C2's amended statement: a concrete `MemberNotFound` request
whose final directory state is exactly the initial one with the
pre-existing target file removed. -/
theorem extract_failure_frame_witness :
    ([] : FS) = fsRemoveIf [("./u_Main.txt", "old")]
      (targetPathOf "./" "u_" "Main.txt") :=
  (extract_failure_frame "./" [("./u_Main.txt", "old")] "a.zip"
      (some [("tests/Main.txt", some "T")]) "Main.txt" false "u_"
      (.error (.memberNotFound ("Main.txt" ++ " not found in " ++ "a.zip")))
      [] (by decide)).2.1 ("Main.txt" ++ " not found in " ++ "a.zip") rfl

/-- C9: running `extract_files` twice with identical inputs returns the same
result and the same final directory — in particular the output file is
byte-identical across the runs, and the second run raises nothing that the
first did not (it never fails on the file left behind by the first run). -/
theorem extract_idempotent (target : String) (fs : FS) (archivePath : String)
    (archOpen : Option Archive) (expected : String) (exact : Bool)
    (pre : String) :
    extract_files target
        (extract_files target fs archivePath archOpen expected exact pre).2
        archivePath archOpen expected exact pre =
      extract_files target fs archivePath archOpen expected exact pre ∧
    fsLookup
        (extract_files target
          (extract_files target fs archivePath archOpen expected exact pre).2
          archivePath archOpen expected exact pre).2
        (targetPathOf target pre expected) =
      fsLookup
        (extract_files target fs archivePath archOpen expected exact pre).2
        (targetPathOf target pre expected) := by
  have main : extract_files target
      (extract_files target fs archivePath archOpen expected exact pre).2
      archivePath archOpen expected exact pre =
      extract_files target fs archivePath archOpen expected exact pre := by
    cases archOpen with
    | none => rfl
    | some arch =>
      cases hscan : scanNames expected (pyBasename expected) exact none arch with
      | exactHit name =>
        cases hrd : readName arch name with
        | none =>
          rw [run_exactHit_key _ _ _ _ _ _ _ _ hscan hrd]
          rw [run_exactHit_key _ _ _ _ _ _ _ _ hscan hrd]
          rw [fsRemoveIf_fsRemoveIf]
        | some content =>
          cases content with
          | none =>
            rw [run_exactHit_decode _ _ _ _ _ _ _ _ hscan hrd]
            rw [run_exactHit_decode _ _ _ _ _ _ _ _ hscan hrd]
            rw [truncate_idem]
          | some v =>
            rw [run_exactHit_ok _ _ _ _ _ _ _ _ _ hscan hrd]
            rw [run_exactHit_ok _ _ _ _ _ _ _ _ _ hscan hrd]
            rw [write_idem]
      | done best =>
        cases hx : exact with
        | true =>
          subst hx
          rw [run_doneExact _ _ _ _ _ _ _ hscan]
          rw [run_doneExact _ _ _ _ _ _ _ hscan]
          rw [fsRemoveIf_fsRemoveIf]
        | false =>
          subst hx
          cases hbest : best with
          | none =>
            subst hbest
            rw [run_doneNone _ _ _ _ _ _ hscan]
            rw [run_doneNone _ _ _ _ _ _ hscan]
            rw [fsRemoveIf_fsRemoveIf]
          | some bb =>
            subst hbest
            by_cases hbe : (bb.1 == "") = true
            · rw [run_doneSome_empty _ _ _ _ _ _ _ hscan hbe]
              rw [run_doneSome_empty _ _ _ _ _ _ _ hscan hbe]
              rw [fsRemoveIf_fsRemoveIf]
            · have hbe' : (bb.1 == "") = false := by
                revert hbe; cases (bb.1 == "") <;> simp
              cases hrd : readName arch bb.1 with
              | none =>
                rw [run_doneSome_key _ _ _ _ _ _ _ hscan hbe' hrd]
                rw [run_doneSome_key _ _ _ _ _ _ _ hscan hbe' hrd]
                rw [fsRemoveIf_fsRemoveIf]
              | some content =>
                cases content with
                | none =>
                  rw [run_doneSome_decode _ _ _ _ _ _ _ hscan hbe' hrd]
                  rw [run_doneSome_decode _ _ _ _ _ _ _ hscan hbe' hrd]
                  rw [truncate_idem]
                | some v =>
                  rw [run_doneSome_ok _ _ _ _ _ _ _ _ hscan hbe' hrd]
                  rw [run_doneSome_ok _ _ _ _ _ _ _ _ hscan hbe' hrd]
                  rw [write_idem]
  exact ⟨main, by rw [main]⟩

/-- C10 counterexample: a call whose archive cannot be opened leaves the
pre-existing file at the target path in place — the start-of-call removal
does not happen on every call. -/
theorem extract_remove_at_start_counterexample :
    extract_files "./" [("./u_Main.txt", "old")] "bad.zip" none
        "Main.txt" true "u_" =
      (.error .archiveOpen, [("./u_Main.txt", "old")]) ∧
    fsLookup [("./u_Main.txt", "old")] (targetPathOf "./" "u_" "Main.txt") =
      some "old" := by
  refine ⟨?_, ?_⟩ <;> decide

/-- C10 (amended): on every call whose archive opens successfully, the
pre-existing file at the target path is removed before anything else reads
the directory — the call behaves exactly as if it had started from the
directory with the target already removed — and the removal persists even
when the call ends with no match, `MemberNotFound`, or `DecodeError` (the
latter leaves the empty truncated file). -/
theorem extract_remove_at_start (target : String) (fs : FS)
    (archivePath : String) (arch : Archive) (expected : String)
    (exact : Bool) (pre : String) :
    extract_files target fs archivePath (some arch) expected exact pre =
      extract_files target
        (fsRemoveIf fs (targetPathOf target pre expected))
        archivePath (some arch) expected exact pre ∧
    (∀ r w, extract_files target fs archivePath (some arch) expected exact pre =
        (r, w) →
      ((∃ msg, r = .error (.memberNotFound msg)) ∨ r = .ok (false, none) →
        fsLookup w (targetPathOf target pre expected) = none) ∧
      (r = .error .decodeError →
        fsLookup w (targetPathOf target pre expected) = some "")) := by
  constructor
  · cases hscan : scanNames expected (pyBasename expected) exact none arch with
    | exactHit name =>
      cases hrd : readName arch name with
      | none =>
        rw [run_exactHit_key _ _ _ _ _ _ _ _ hscan hrd,
          run_exactHit_key _ _ _ _ _ _ _ _ hscan hrd, fsRemoveIf_fsRemoveIf]
      | some content =>
        cases content with
        | none =>
          rw [run_exactHit_decode _ _ _ _ _ _ _ _ hscan hrd,
            run_exactHit_decode _ _ _ _ _ _ _ _ hscan hrd, fsRemoveIf_fsRemoveIf]
        | some v =>
          rw [run_exactHit_ok _ _ _ _ _ _ _ _ _ hscan hrd,
            run_exactHit_ok _ _ _ _ _ _ _ _ _ hscan hrd, fsRemoveIf_fsRemoveIf]
    | done best =>
      cases hx : exact with
      | true =>
        subst hx
        rw [run_doneExact _ _ _ _ _ _ _ hscan,
          run_doneExact _ _ _ _ _ _ _ hscan, fsRemoveIf_fsRemoveIf]
      | false =>
        subst hx
        cases hbest : best with
        | none =>
          subst hbest
          rw [run_doneNone _ _ _ _ _ _ hscan,
            run_doneNone _ _ _ _ _ _ hscan, fsRemoveIf_fsRemoveIf]
        | some bb =>
          subst hbest
          by_cases hbe : (bb.1 == "") = true
          · rw [run_doneSome_empty _ _ _ _ _ _ _ hscan hbe,
              run_doneSome_empty _ _ _ _ _ _ _ hscan hbe, fsRemoveIf_fsRemoveIf]
          · have hbe' : (bb.1 == "") = false := by
              revert hbe; cases (bb.1 == "") <;> simp
            cases hrd : readName arch bb.1 with
            | none =>
              rw [run_doneSome_key _ _ _ _ _ _ _ hscan hbe' hrd,
                run_doneSome_key _ _ _ _ _ _ _ hscan hbe' hrd,
                fsRemoveIf_fsRemoveIf]
            | some content =>
              cases content with
              | none =>
                rw [run_doneSome_decode _ _ _ _ _ _ _ hscan hbe' hrd,
                  run_doneSome_decode _ _ _ _ _ _ _ hscan hbe' hrd,
                  fsRemoveIf_fsRemoveIf]
              | some v =>
                rw [run_doneSome_ok _ _ _ _ _ _ _ _ hscan hbe' hrd,
                  run_doneSome_ok _ _ _ _ _ _ _ _ hscan hbe' hrd,
                  fsRemoveIf_fsRemoveIf]
  · intro r w hrw
    have hframe := extract_frame_cases target fs archivePath (some arch)
      expected exact pre r w hrw
    constructor
    · intro hcase
      rcases hcase with ⟨msg, hmsg⟩ | hok
      · rw [hframe.2.1 msg hmsg, fsRemoveIf_eq_fsRemove]
        exact fsLookup_fsRemove_self fs _
      · rw [hframe.2.2.2 hok, fsRemoveIf_eq_fsRemove]
        exact fsLookup_fsRemove_self fs _
    · intro hdec
      rw [hframe.2.2.1 hdec]
      exact fsLookup_fsWrite_self _ _ _

/-- Witness for C10's amended statement: a concrete call on an openable
archive ending in `MemberNotFound`, after which nothing remains at the
target path. -/
theorem extract_remove_at_start_witness :
    extract_files "./" [("./w_Main.txt", "stale")] "b.zip"
        (some [("tests/Main.txt", some "T")]) "Main.txt" false "w_" =
      extract_files "./"
        (fsRemoveIf [("./w_Main.txt", "stale")]
          (targetPathOf "./" "w_" "Main.txt"))
        "b.zip" (some [("tests/Main.txt", some "T")]) "Main.txt" false "w_" ∧
    fsLookup ([] : FS) (targetPathOf "./" "w_" "Main.txt") = none :=
  ⟨(extract_remove_at_start "./" [("./w_Main.txt", "stale")] "b.zip"
      [("tests/Main.txt", some "T")] "Main.txt" false "w_").1,
   ((extract_remove_at_start "./" [("./w_Main.txt", "stale")] "b.zip"
      [("tests/Main.txt", some "T")] "Main.txt" false "w_").2
      (.error (.memberNotFound ("Main.txt" ++ " not found in " ++ "b.zip")))
      [] (by decide)).1
      (Or.inl ⟨"Main.txt" ++ " not found in " ++ "b.zip", rfl⟩)⟩

/-- C3 counterexample: when `expectedPath` itself contains `"test"`, the
archive holds a member equal to `expectedPath` (with another member
qualifying as a fuzzy candidate), yet the call selects the fuzzy candidate
and reports `matched = false` — the exact member was excluded by the
`"test"` filter before the equality check. -/
theorem extract_exact_wins_counterexample :
    (("testdir/a.txt", some "X") ∈
      ([("testdir/a.txt", some "X"), ("other/a.txt", some "Y")] : Archive)) ∧
    containsSub "other/a.txt" "test" = false ∧
    strEndsWith "other/a.txt" (pyBasename "testdir/a.txt") = true ∧
    (extract_files "./" [] "a.zip"
        (some [("testdir/a.txt", some "X"), ("other/a.txt", some "Y")])
        "testdir/a.txt" false "u_").1 =
      .ok (false, some "other/a.txt") := by
  refine ⟨List.mem_cons_self _ _, ?_, ?_, ?_⟩ <;> decide

/-- Witness for C3's amended statement: the exact member wins even when a
fuzzy candidate is listed first, and a fuzzy result always carries
`matched = false` with a written file. -/
theorem extract_exact_wins_witness :
    extract_files "./" [] "a.zip"
        (some [("other/Main.txt", some "Y"), ("proj1/Main.txt", some "X")])
        "proj1/Main.txt" false "alice42_" =
      (.ok (true, some "proj1/Main.txt"),
        fsWrite (fsWrite
            (fsRemoveIf [] (targetPathOf "./" "alice42_" "proj1/Main.txt"))
            (targetPathOf "./" "alice42_" "proj1/Main.txt") "")
          (targetPathOf "./" "alice42_" "proj1/Main.txt") "X") ∧
    (false = false ∧
      ∃ v, fsLookup [("./alice42_Main.txt", "X")]
        (targetPathOf "./" "alice42_" "src/Main.txt") = some v) :=
  ⟨(extract_exact_wins "proj1/Main.txt").1 "./" [] "a.zip"
      [("other/Main.txt", some "Y"), ("proj1/Main.txt", some "X")]
      "alice42_" false "X" (by decide) (by decide),
   (extract_exact_wins "src/Main.txt").2 "./" [] "a.zip"
      [("proj1/Main.txt", some "X")] "alice42_" false false
      "proj1/Main.txt" [("./alice42_Main.txt", "X")] (by decide) (by decide)⟩

/-! ### Identity-parser analysis -/

theorem findSome?_exists_of_mem {α β : Type} (l : List α) (f : α → Option β)
    (a : α) (ha : a ∈ l) (b : β) (hb : f a = some b) :
    ∃ v, l.findSome? f = some v := by
  induction l with
  | nil => cases ha
  | cons x rest ih =>
    cases hfx : f x with
    | some v => exact ⟨v, by rw [List.findSome?_cons, hfx]⟩
    | none =>
      rcases List.mem_cons.mp ha with h | h
      · exact absurd (h ▸ hb) (by rw [hfx]; simp)
      · obtain ⟨v, hv⟩ := ih h
        exact ⟨v, by rw [List.findSome?_cons, hfx]; exact hv⟩

theorem mem_countdown {k n : Nat} : k ∈ countdown n ↔ 1 ≤ k ∧ k ≤ n := by
  unfold countdown
  simp only [List.mem_map, List.mem_reverse, List.mem_range]
  constructor
  · rintro ⟨a, h1, rfl⟩
    omega
  · rintro ⟨h1, h2⟩
    exact ⟨k - 1, by omega, by omega⟩

theorem mem_countdown0 {k n : Nat} : k ∈ countdown0 n ↔ k ≤ n := by
  unfold countdown0
  simp only [List.mem_reverse, List.mem_range]
  omega

theorem take_all_of_le_runLen (p : Char → Bool) :
    ∀ (cs : List Char) (n : Nat), n ≤ runLen p cs → (cs.take n).all p = true := by
  intro cs
  induction cs with
  | nil => intro n _; simp
  | cons c rest ih =>
    intro n h
    unfold runLen at h
    rw [List.takeWhile_cons] at h
    by_cases hp : p c = true
    · rw [if_pos hp] at h
      cases n with
      | zero => simp
      | succ n' =>
        rw [List.take_succ_cons, List.all_cons, hp, Bool.true_and]
        exact ih n' (by simpa [runLen] using Nat.le_of_succ_le_succ (by simpa using h))
    · rw [if_neg hp] at h
      simp only [List.length_nil, Nat.le_zero] at h
      subst h
      simp

theorem runLen_ge_of_all (p : Char → Bool) :
    ∀ (a rest : List Char), a.all p = true → a.length ≤ runLen p (a ++ rest) := by
  intro a
  induction a with
  | nil => intro rest _; simp
  | cons c a' ih =>
    intro rest h
    rw [List.all_cons, Bool.and_eq_true] at h
    show a'.length + 1 ≤ runLen p (c :: (a' ++ rest))
    unfold runLen
    rw [List.takeWhile_cons, if_pos h.1]
    simp only [List.length_cons]
    exact Nat.succ_le_succ (ih rest h.2)

theorem takeWhile_append_all (p : Char → Bool) :
    ∀ (l₁ l₂ : List Char), l₁.all p = true →
      (l₁ ++ l₂).takeWhile p = l₁ ++ l₂.takeWhile p := by
  intro l₁
  induction l₁ with
  | nil => intro l₂ _; rfl
  | cons c l' ih =>
    intro l₂ h
    rw [List.all_cons, Bool.and_eq_true] at h
    rw [List.cons_append, List.takeWhile_cons, if_pos h.1, ih l₂ h.2,
      List.cons_append]

theorem digit_not_lower (c : Char) (h : isDigit09 c = true) :
    isLowerAZ c = false := by
  unfold isDigit09 at h
  rw [Bool.and_eq_true] at h
  have h9 : c ≤ '9' := by simpa using h.2
  unfold isLowerAZ
  rw [Bool.and_eq_false_iff]
  left
  simp only [decide_eq_false_iff_not]
  intro ha
  exact absurd (le_trans ha h9) (by decide)

theorem isSubmitterKey_of (kl kd : List Char) (h1 : kl ≠ [])
    (h2 : kl.all isLowerAZ = true) (h3 : kd.all isDigit09 = true) :
    isSubmitterKey (kl ++ kd) = true := by
  unfold isSubmitterKey
  rw [takeWhile_append_all _ _ _ h2]
  have hkd : kd.takeWhile isLowerAZ = [] := by
    cases kd with
    | nil => rfl
    | cons c k' =>
      rw [List.takeWhile_cons, if_neg ?_]
      rw [List.all_cons, Bool.and_eq_true] at h3
      rw [digit_not_lower c h3.1]
      simp
  rw [hkd, List.append_nil]
  simp only [Bool.and_eq_true]
  constructor
  · cases kl with
    | nil => exact absurd rfl h1
    | cons c k' => simp
  · rw [List.drop_left]
    exact h3

theorem isSubmitterKey_split (key : List Char) (h : isSubmitterKey key = true) :
    ∃ kl kd, key = kl ++ kd ∧ kl ≠ [] ∧ kl.all isLowerAZ = true ∧
      kd.all isDigit09 = true := by
  unfold isSubmitterKey at h
  rw [Bool.and_eq_true] at h
  have hpre : key.takeWhile isLowerAZ <+: key := List.takeWhile_prefix _
  have htake : key.take (key.takeWhile isLowerAZ).length =
      key.takeWhile isLowerAZ := (List.prefix_iff_eq_take.mp hpre).symm
  refine ⟨key.takeWhile isLowerAZ, key.drop (key.takeWhile isLowerAZ).length,
    ?_, ?_, List.all_takeWhile, h.2⟩
  · conv_lhs => rw [← List.take_append_drop (key.takeWhile isLowerAZ).length key]
    rw [htake]
  · intro hnil
    rw [hnil] at h
    simp at h

theorem dateShaped_length (l : List Char) (h : dateShaped l = true) :
    l.length = 10 := by
  unfold dateShaped at h
  split at h
  · simp
  · cases h

/-- Soundness of the tail matcher: a successful match exhibits the
`<mid>_<date>-<tail>` structure with a newline-free nonempty middle. -/
theorem matchTail_sound (rest2 : List Char) (d : List Char)
    (h : matchTail rest2 = some d) :
    ∃ mid tail, rest2 = mid ++ '_' :: (d ++ '-' :: tail) ∧ mid ≠ [] ∧
      mid.all (fun c => c != '\n') = true ∧ dateShaped d = true := by
  unfold matchTail at h
  obtain ⟨m, hm, hsome⟩ := List.exists_of_findSome?_eq_some h
  rw [mem_countdown] at hm
  dsimp only at hsome
  split at hsome
  case _ r3 heq =>
    by_cases hds : dateShaped (r3.take 10) = true
    · rw [if_pos hds] at hsome
      split at hsome
      case _ tl heq2 =>
        have hd : r3.take 10 = d := Option.some.inj hsome
        have hlen : m < rest2.length := by
          by_contra hc
          have : rest2.drop m = [] := List.drop_eq_nil_of_le (by omega)
          rw [this] at heq
          cases heq
        refine ⟨rest2.take m, tl, ?_, ?_, ?_, ?_⟩
        · conv_lhs => rw [← List.take_append_drop m rest2]
          rw [heq, ← hd, ← heq2, List.take_append_drop]
        · intro hnil
          have := congrArg List.length hnil
          simp only [List.length_take, List.length_nil] at this
          omega
        · exact take_all_of_le_runLen _ rest2 m hm.2
        · rw [hd] at hds; exact hds
      case _ hne =>
        cases hsome
    · rw [if_neg hds] at hsome
      cases hsome
  case _ hne =>
    cases hsome

/-- Soundness of the key matcher: a successful match exhibits the
`<key>_<tail>` structure with a well-shaped submitter key. -/
theorem matchKey_sound (rest1 : List Char) (key d : List Char)
    (h : matchKey rest1 = some (key, d)) :
    ∃ rest2, rest1 = key ++ '_' :: rest2 ∧ isSubmitterKey key = true ∧
      matchTail rest2 = some d := by
  unfold matchKey at h
  obtain ⟨lk, hlk, h2⟩ := List.exists_of_findSome?_eq_some h
  rw [mem_countdown] at hlk
  obtain ⟨ld, hld, h3⟩ := List.exists_of_findSome?_eq_some h2
  rw [mem_countdown0] at hld
  dsimp only at h3
  split at h3
  case _ rest2 heq =>
    cases hmt : matchTail rest2 with
    | none => rw [hmt] at h3; cases h3
    | some dd =>
      rw [hmt] at h3
      have hinj := Option.some.inj h3
      have hkeyeq : rest1.take lk ++ (rest1.drop lk).take ld = key :=
        ((Prod.mk.injEq _ _ _ _).mp hinj).1
      have hdeq : dd = d := ((Prod.mk.injEq _ _ _ _).mp hinj).2
      have hklall : (rest1.take lk).all isLowerAZ = true :=
        take_all_of_le_runLen _ rest1 lk hlk.2
      have hkdall : ((rest1.drop lk).take ld).all isDigit09 = true :=
        take_all_of_le_runLen _ (rest1.drop lk) ld hld
      have hlklen : lk ≤ rest1.length := by
        have h1 := hlk.2
        unfold runLen at h1
        have h2 := (@List.takeWhile_prefix _ rest1 isLowerAZ).length_le
        omega
      have hklne : rest1.take lk ≠ [] := by
        intro hnil
        have := congrArg List.length hnil
        simp only [List.length_take, List.length_nil] at this
        omega
      refine ⟨rest2, ?_, ?_, by rw [hmt, hdeq]⟩
      · conv_lhs => rw [← List.take_append_drop lk rest1]
        conv_lhs => rw [← List.take_append_drop ld (rest1.drop lk)]
        rw [heq, ← hkeyeq, List.append_assoc]
      · rw [← hkeyeq]
        exact isSubmitterKey_of _ _ hklne hklall hkdall
  case _ hne =>
    cases h3

/-- Soundness of identity parsing: a successful parse yields exactly the
captured submitter-key and date of a structural decomposition of the
filename. -/
theorem parse_fname_sound (f : String) (k d : String)
    (h : parse_fname f = some (k, d)) : specDecomposesNL f k d := by
  unfold parse_fname at h
  rw [Option.map_eq_some'] at h
  obtain ⟨kd2, hfs, hpair⟩ := h
  obtain ⟨la, hla, hg⟩ := List.exists_of_findSome?_eq_some hfs
  rw [mem_countdown] at hla
  split at hg
  case _ rest1 heq =>
    obtain ⟨rest2, hrest1, hkey, hmt⟩ := matchKey_sound rest1 kd2.1 kd2.2 hg
    obtain ⟨mid, tail, hrest2, hmidne, hmidall, hds⟩ :=
      matchTail_sound rest2 kd2.2 hmt
    have hk : k.data = kd2.1 := by
      have := ((Prod.mk.injEq _ _ _ _).mp hpair).1
      rw [← this]
    have hd : d.data = kd2.2 := by
      have := ((Prod.mk.injEq _ _ _ _).mp hpair).2
      rw [← this]
    have hlalen : la ≤ f.data.length := by
      have h1 := hla.2
      unfold runLen at h1
      have h2 := (@List.takeWhile_prefix _ f.data (fun c => c != '_')).length_le
      omega
    refine ⟨f.data.take la, mid, tail, ?_, ?_, ?_, ?_, hmidne, hmidall, ?_⟩
    · conv_lhs => rw [← List.take_append_drop la f.data]
      rw [heq, hrest1, hrest2, hk, hd]
    · intro hnil
      have := congrArg List.length hnil
      simp only [List.length_take, List.length_nil] at this
      omega
    · exact take_all_of_le_runLen _ f.data la hla.2
    · rw [hk]; exact hkey
    · rw [hd]; exact hds
  case _ hne =>
    cases hg

/-- Completeness of the tail matcher: a `<mid>_<date>-<tail>` structure with
newline-free nonempty middle is found by the greedy search. -/
theorem matchTail_complete (rest2 mid tail dd : List Char)
    (hr : rest2 = mid ++ '_' :: (dd ++ '-' :: tail)) (hmidne : mid ≠ [])
    (hmidall : mid.all (fun c => c != '\n') = true)
    (hds : dateShaped dd = true) : ∃ v, matchTail rest2 = some v := by
  subst hr
  have hdlen := dateShaped_length dd hds
  have ht10 : (dd ++ '-' :: tail).take 10 = dd := by
    rw [← hdlen]; exact List.take_left _ _
  have hd10 : (dd ++ '-' :: tail).drop 10 = '-' :: tail := by
    rw [← hdlen]; exact List.drop_left _ _
  unfold matchTail
  refine findSome?_exists_of_mem _ _ mid.length ?_ dd ?_
  · exact mem_countdown.mpr ⟨List.length_pos.mpr hmidne,
      runLen_ge_of_all _ mid _ hmidall⟩
  · dsimp only
    rw [List.drop_left]
    show (if dateShaped ((dd ++ '-' :: tail).take 10) = true then
        match (dd ++ '-' :: tail).drop 10 with
        | '-' :: _ => some ((dd ++ '-' :: tail).take 10)
        | _ => none
      else none) = some dd
    rw [ht10, hd10, hds]
    rfl

/-- Completeness of the key matcher. -/
theorem matchKey_complete (rest1 key rest2 : List Char)
    (hr : rest1 = key ++ '_' :: rest2) (hkey : isSubmitterKey key = true)
    (hmt : ∃ v, matchTail rest2 = some v) :
    ∃ v, matchKey rest1 = some v := by
  subst hr
  obtain ⟨kl, kd, hk, hklne, hklall, hkdall⟩ := isSubmitterKey_split key hkey
  subst hk
  obtain ⟨dv, hdv⟩ := hmt
  have hshape : (kl ++ kd) ++ '_' :: rest2 = kl ++ (kd ++ '_' :: rest2) :=
    List.append_assoc kl kd ('_' :: rest2)
  have htake : ((kl ++ kd) ++ '_' :: rest2).take kl.length = kl := by
    rw [hshape]; exact List.take_left _ _
  have hdrop : ((kl ++ kd) ++ '_' :: rest2).drop kl.length = kd ++ '_' :: rest2 := by
    rw [hshape]; exact List.drop_left _ _
  have htake2 : (kd ++ '_' :: rest2).take kd.length = kd := List.take_left _ _
  have hdrop2 : (kd ++ '_' :: rest2).drop kd.length = '_' :: rest2 :=
    List.drop_left _ _
  have hinner : ∃ v, (countdown0 (runLen isDigit09 (kd ++ '_' :: rest2))).findSome?
      (fun ld => match (kd ++ '_' :: rest2).drop ld with
        | '_' :: r2 => (matchTail r2).map
            (fun d => (kl ++ (kd ++ '_' :: rest2).take ld, d))
        | _ => none) = some v := by
    refine findSome?_exists_of_mem _ _ kd.length ?_
      (kl ++ (kd ++ '_' :: rest2).take kd.length, dv) ?_
    · exact mem_countdown0.mpr (runLen_ge_of_all _ kd _ hkdall)
    · dsimp only
      rw [hdrop2]
      have hmapped : (matchTail rest2).map
          (fun d => (kl ++ (kd ++ '_' :: rest2).take kd.length, d)) =
          some (kl ++ (kd ++ '_' :: rest2).take kd.length, dv) := by
        rw [hdv]
        rfl
      exact hmapped
  obtain ⟨v, hv⟩ := hinner
  unfold matchKey
  refine findSome?_exists_of_mem _ _ kl.length ?_ v ?_
  · refine mem_countdown.mpr ⟨List.length_pos.mpr hklne, ?_⟩
    rw [hshape]
    exact runLen_ge_of_all _ kl _ hklall
  · dsimp only
    rw [htake, hdrop]
    exact hv

/-- Completeness of identity parsing: a filename admitting a structural
decomposition with newline-free middle segment does parse. -/
theorem parse_fname_complete (f : String) (k d : String)
    (hdec : specDecomposesNL f k d) : parse_fname f ≠ none := by
  obtain ⟨a, mid, tail, heq, hane, haall, hkey, hmidne, hmidall, hds⟩ := hdec
  have hmt : ∃ v, matchTail (mid ++ '_' :: (d.data ++ '-' :: tail)) = some v :=
    matchTail_complete _ mid tail d.data rfl hmidne hmidall hds
  have hmk : ∃ v,
      matchKey (k.data ++ '_' :: (mid ++ '_' :: (d.data ++ '-' :: tail))) =
        some v :=
    matchKey_complete _ k.data _ rfl hkey hmt
  obtain ⟨v, hv⟩ := hmk
  intro hcon
  simp only [parse_fname] at hcon
  rw [Option.map_eq_none'] at hcon
  have hex : ∃ w, (countdown (runLen (fun c => c != '_') f.data)).findSome?
      (fun la => match f.data.drop la with
        | '_' :: rest1 => matchKey rest1
        | _ => none) = some w := by
    refine findSome?_exists_of_mem _ _ a.length ?_ v ?_
    · refine mem_countdown.mpr ⟨List.length_pos.mpr hane, ?_⟩
      have : a.length ≤ runLen (fun c => c != '_')
          (a ++ '_' :: (k.data ++ '_' :: (mid ++ '_' :: (d.data ++ '-' :: tail)))) :=
        runLen_ge_of_all _ a _ haall
      rw [← heq] at this
      exact this
    · dsimp only
      rw [heq, List.drop_left]
      exact hv
  obtain ⟨w, hw⟩ := hex
  exact Option.noConfusion (hw.symm.trans hcon)

/-- C1 (amended): identity parsing succeeds exactly on the filenames that
match the structural pattern with a newline-free middle segment, and then
returns submitter-key and date substrings occurring in the input at the
pattern's capture positions; on every other filename it fails (returns no
result at all — the reference aborts on the failed match at line 68, so no
partial result ever escapes). -/
theorem parse_fname_spec (f : String) :
    (∀ k d, parse_fname f = some (k, d) → specDecomposesNL f k d) ∧
    (parse_fname f = none → ∀ k d, ¬specDecomposesNL f k d) :=
  ⟨fun k d h => parse_fname_sound f k d h,
   fun hnone k d hdec => parse_fname_complete f k d hdec hnone⟩

/-- Witness for C1's amended statement at the spec's own example filename. -/
theorem parse_fname_spec_witness :
    specDecomposesNL "submission_alice42_proj1_2024-03-01-final.zip"
      "alice42" "2024-03-01" :=
  (parse_fname_spec "submission_alice42_proj1_2024-03-01-final.zip").1
    "alice42" "2024-03-01" (by rfl)

/-- C1 counterexample: `a_b_c\nd_2024-01-02-e` matches the structural
pattern of the specification (its middle `<ignored>` segment `c\nd` is
"one-or-more arbitrary characters"), yet parsing fails, because Python's
`.` does not match a newline. -/
theorem parse_fname_counterexample :
    specDecomposes "a_b_c\nd_2024-01-02-e" "b" "2024-01-02" ∧
    parse_fname "a_b_c\nd_2024-01-02-e" = none := by
  constructor
  · refine ⟨"a".data, "c\nd".data, "e".data, ?_, ?_, ?_, ?_, ?_, ?_⟩ <;> decide
  · rfl

end BBX
